import Mathlib

/-! Gryffin store (session.go): a shallow embedding.

The store of `session.go` is embedded as a record of three Go maps (total
functions into `Option`), the outbound channel and the detached sends that
have not reached it yet.  A Go string is a sequence of bytes, valid UTF-8 or
not: it is the Lean string whose characters have those bytes as their codes,
so `"\xff"` is the one-byte string `0xff` and every ASCII literal is
itself (a character above `0xff` stands for no byte; the definitions are
total on such strings too).  `uint64` values are natural numbers (reduced
modulo `2 ^ 64` where Go arithmetic can wrap), and the wall clock read by
`Hit` is an explicit argument in nanoseconds since the Unix epoch.
-/

namespace Gryffin

/-! ## strconv / fmt: number formatting and parsing -/

/-- The digit table of strconv:
`const digits = "0123456789abcdefghijklmnopqrstuvwxyz"`. -/
def digits : List Char := "0123456789abcdefghijklmnopqrstuvwxyz".toList

/-- Table lookup `digits[d]`. -/
def digitChar (d : Nat) : Char := digits.getD d '?'

/-- The digit loop of strconv `formatBits` (general case):
`for u >= b { i--; q := u / b; a[i] = digits[u - q*b]; u = q }` followed by
`i--; a[i] = digits[u]`.  The first argument bounds the number of
iterations; `a` is the part of the buffer already written. -/
def formatBitsLoop (b : Nat) : Nat → Nat → List Char → List Char
  | 0, u, a => digitChar u :: a
  | fuel + 1, u, a =>
    if b ≤ u then formatBitsLoop b fuel (u / b) (digitChar (u % b) :: a)
    else digitChar u :: a

/-- The unsigned part of strconv `formatBits`: the digits of `u` in base `b`,
most significant first.  The loop runs at most `u` times. -/
def formatBits (u b : Nat) : List Char := formatBitsLoop b u u []

/-- Go `strconv.FormatUint(v, base)`. -/
def FormatUint (v base : Nat) : String := ⟨formatBits v base⟩

/-- Go `strconv.FormatInt(i, base)`: `formatBits` with `neg = i < 0`, which
formats the magnitude and then prepends the sign. -/
def FormatInt (i : Int) (base : Nat) : String :=
  if i < 0 then ⟨'-' :: formatBits (-i).toNat base⟩ else ⟨formatBits i.toNat base⟩

/-- Go `fmt.Sprintf("%x", f)` for an unsigned integer: lowercase base-16
digits, no `0x`, produced by the same digit loop over `"0123456789abcdef"`. -/
def Sprintfx (f : Nat) : String := ⟨formatBits f 16⟩

/-- The two errors of strconv number parsing that can arise at a valid base
and bit size, and the two for an invalid base or bit size. -/
inductive NumError where
  | ErrSyntax
  | ErrRange
  | ErrBase
  | ErrBitSize
  deriving DecidableEq, Repr

/-- Go strconv `lower(c)`: `c | ('x' - 'X')`. -/
def lower (c : Nat) : Nat := c ||| 0x20

/-- The digit `switch` inside the `ParseUint` loop, on one character code:
`'0' <= c && c <= '9'` gives `c - '0'`, `'a' <= lower(c) && lower(c) <= 'z'`
gives `lower(c) - 'a' + 10`, anything else is a syntax error (`none`).
The `'_'` case needs `base == 0` and is never taken here. -/
def digitVal (c : Nat) : Option Nat :=
  if 48 ≤ c ∧ c ≤ 57 then some (c - 48)
  else if 97 ≤ lower c ∧ lower c ≤ 122 then some (lower c - 97 + 10)
  else none

/-- The loop of `ParseUint` over the characters of the input with
accumulator `n`.  A Go string is iterated by bytes, here the codes of the
characters; every byte from `0x80` on is rejected by `digitVal`. -/
def parseUintLoop (base cutoff maxVal : Nat) : List Char → Nat → Nat × Option NumError
  | [], n => (n, none)
  | c :: cs, n =>
    match digitVal c.toNat with
    | none => (0, some NumError.ErrSyntax)
    | some d =>
      if d ≥ base then (0, some NumError.ErrSyntax)
      else if n ≥ cutoff then (maxVal, some NumError.ErrRange)
      else
        let n' := (n * base) % 2 ^ 64
        let n1 := (n' + d) % 2 ^ 64
        if n1 < n' ∨ n1 > maxVal then (maxVal, some NumError.ErrRange)
        else parseUintLoop base cutoff maxVal cs n1

/-- Go `strconv.ParseUint(s, base, bitSize)` for an explicit base
`2 ≤ base ≤ 36` (the prefix detection of `base == 0` is not embedded: the
only call passes 16).  Returns the value together with the error. -/
def ParseUint (s : String) (base bitSize : Nat) : Nat × Option NumError :=
  if s = "" then (0, some NumError.ErrSyntax)
  else if ¬ (2 ≤ base ∧ base ≤ 36) then (0, some NumError.ErrBase)
  else if bitSize = 0 ∨ bitSize > 64 then (0, some NumError.ErrBitSize)
  else
    let cutoff := (2 ^ 64 - 1) / base + 1
    let maxVal := 2 ^ bitSize - 1
    parseUintLoop base cutoff maxVal s.toList 0

/-! ## The store -/

/-- The `PublishMessage` struct: function, kind, key, value. -/
structure PublishMessage where
  F : String
  T : String
  K : String
  V : String
  deriving DecidableEq, Repr

/-- A `[]byte` payload on a channel, represented by what `encoding/json`
makes of it: either a JSON document that `json.Unmarshal` decodes without
error into the message `m` (absent fields are empty strings), or bytes on
which `json.Unmarshal` returns an error.  The strings `json.Unmarshal`
produces are valid UTF-8; `json` ranges over all messages, those included. -/
inductive Payload where
  | json (m : PublishMessage)
  | malformed (raw : List Nat)
  deriving DecidableEq, Repr

/-- The first-byte and continuation-byte checks of `utf8.DecodeRuneInString`
after the first byte announced an encoding of `sz` bytes whose second byte
must lie in `[lo, hi]` (`acceptRanges`); further bytes must lie in
`[0x80, 0xBF]`.  The result is `sz`, or 0 for `(RuneError, 1)`, which is
also the answer when the string is too short. -/
def utf8Tail (sz lo hi : Nat) (rest : List Nat) : Nat :=
  match sz, rest with
  | 2, s1 :: _ => if lo ≤ s1 ∧ s1 ≤ hi then 2 else 0
  | 3, s1 :: s2 :: _ => if lo ≤ s1 ∧ s1 ≤ hi ∧ 0x80 ≤ s2 ∧ s2 ≤ 0xBF then 3 else 0
  | 4, s1 :: s2 :: s3 :: _ =>
    if lo ≤ s1 ∧ s1 ≤ hi ∧ 0x80 ≤ s2 ∧ s2 ≤ 0xBF ∧ 0x80 ≤ s3 ∧ s3 ≤ 0xBF then 4 else 0
  | _, _ => 0

/-- The size that `utf8.DecodeRuneInString` reports for the bytes at hand, by
the table `first`: 1 for ASCII, 2 to 4 for a well-formed encoding (no
overlong form, no surrogate, nothing above U+10FFFF), and 0 in place of
`(RuneError, 1)`: no encoding starts here. -/
def utf8Size : List Nat → Nat
  | [] => 0
  | s0 :: rest =>
    if s0 < 0x80 then 1
    else if s0 < 0xC2 then 0
    else if s0 ≤ 0xDF then utf8Tail 2 0x80 0xBF rest
    else if s0 = 0xE0 then utf8Tail 3 0xA0 0xBF rest
    else if s0 ≤ 0xEC then utf8Tail 3 0x80 0xBF rest
    else if s0 = 0xED then utf8Tail 3 0x80 0x9F rest
    else if s0 ≤ 0xEF then utf8Tail 3 0x80 0xBF rest
    else if s0 = 0xF0 then utf8Tail 4 0x90 0xBF rest
    else if s0 ≤ 0xF3 then utf8Tail 4 0x80 0xBF rest
    else if s0 = 0xF4 then utf8Tail 4 0x80 0x8F rest
    else 0

/-- The loop of the `encoding/json` string encoder as far as it changes what
is read back: bytes of a well-formed encoding are kept (their escapes
decode to themselves), and a byte where `utf8.DecodeRuneInString` returns
`(RuneError, 1)` is written as `\ufffd`, read back as the three bytes
`EF BF BD`.  The first argument counts the bytes still to copy of the
encoding just recognised. -/
def jsonCoerceLoop : Nat → List Char → List Char
  | _, [] => []
  | keep + 1, c :: cs => c :: jsonCoerceLoop keep cs
  | 0, c :: cs =>
    match utf8Size ((c :: cs).map Char.toNat) with
    | 0 => '\xef' :: '\xbf' :: '\xbd' :: jsonCoerceLoop 0 cs
    | n + 1 => c :: jsonCoerceLoop n cs

/-- The string `json.Unmarshal` reads back from what `json.Marshal` wrote for
the Go string `s`: `s` with every byte that is not part of a well-formed
UTF-8 encoding replaced by the encoding of U+FFFD. -/
def jsonCoerce (s : String) : String := ⟨jsonCoerceLoop 0 s.data⟩

/-- The loop of `utf8.ValidString`: every byte is ASCII or belongs to a
well-formed encoding found by the table `first`.  The first argument
counts the bytes still to skip of the encoding just recognised. -/
def validStringLoop : Nat → List Char → Bool
  | _, [] => true
  | keep + 1, _ :: cs => validStringLoop keep cs
  | 0, c :: cs =>
    match utf8Size ((c :: cs).map Char.toNat) with
    | 0 => false
    | n + 1 => validStringLoop n cs

/-- Go `utf8.ValidString(s)`: the Go string consists of well-formed UTF-8
encodings only. -/
def ValidString (s : String) : Bool := validStringLoop 0 s.data

/-- The call `json.Marshal(&m)`: a document that decodes to the message with
every field coerced to valid UTF-8. -/
def Marshal (m : PublishMessage) : Payload :=
  Payload.json
    { F := jsonCoerce m.F, T := jsonCoerce m.T, K := jsonCoerce m.K, V := jsonCoerce m.V }

/-- The call `json.Unmarshal(jsonPayload, &m)`; `none` is `err != nil`. -/
def Unmarshal : Payload → Option PublishMessage
  | Payload.json m => some m
  | Payload.malformed _ => none

/-- Modelled from the spec: the `html-distance` package that defines
`distance.Oracle` is not part of the source at hand, so the Oracle is an
abstract capability with the operations the store calls: `NewOracle()`,
`oracle.See(f)` (the spec's `record`) and `oracle.Seen(f, r)` (the spec's
`isNear`).  `O` is the state an Oracle holds. -/
structure OracleOps (O : Type) where
  NewOracle : O
  See : O → Nat → O
  Seen : O → Nat → Nat → Bool

/-- The struct `GryffinStore`.  A Go map is a function into `Option`
(`none`: key absent).  `Oracles` maps a key to the state of the Oracle its
pointer refers to.  `snd` is `none` for a nil channel and otherwise the
payloads buffered in the outbound channel, oldest first.  `sending` holds
the payloads of the detached goroutines that were started and have not
completed their send `s.snd <- jsonPayload` yet, in the order they were
started; which of them sends next is the scheduler's choice (`sendStep`).
The lock `Mu` has no sequential content; the payloads read from `rcv` are
the argument of `processRcvMsg`. -/
structure GryffinStore (O : Type) where
  Oracles : String → Option O
  Hashes : String → Option Bool
  Hits : String → Option Int
  snd : Option (List Payload)
  sending : List Payload

/-- The capacity of the channels: `make(chan []byte, 10)`. -/
def chanCap : Nat := 10

/-- The map assignment `m[k] = v`. -/
def mapSet {α : Type} (m : String → Option α) (k : String) (v : α) : String → Option α :=
  fun k' => if k' = k then some v else m k'

/-- The function `newGryffinStore(shared)`: three empty maps, and the channels
only when `shared`. -/
def newGryffinStore {O : Type} (shared : Bool) : GryffinStore O :=
  { Oracles := fun _ => none
    Hashes := fun _ => none
    Hits := fun _ => none
    snd := if shared then some [] else none
    sending := [] }

/-- The function `NewSharedGryffinStore()`. -/
def NewSharedGryffinStore {O : Type} : GryffinStore O := newGryffinStore true

/-- The function `NewGryffinStore()`. -/
def NewGryffinStore {O : Type} : GryffinStore O := newGryffinStore false

/-- The "Remote update" block shared by `oracleSee` and `hashesSee`:
`if !localOnly && s.snd != nil { go func() { ...; s.snd <- jsonPayload }() }`.
The `go` statement starts a goroutine and returns: the payload joins the
sends in progress, the channel itself is not touched here. -/
def remoteUpdate {O : Type} (s : GryffinStore O) (localOnly : Bool) (m : PublishMessage) :
    GryffinStore O :=
  if !localOnly && s.snd.isSome then { s with sending := s.sending ++ [Marshal m] } else s

/-- The statement `s.snd <- jsonPayload` of the `i`-th goroutine in progress,
when the scheduler runs it: with room in the channel (fewer than `chanCap`
payloads buffered) the payload is appended to the buffer and the goroutine
ends; with a full channel the goroutine stays blocked and nothing changes. -/
def sendStep {O : Type} (s : GryffinStore O) (i : Nat) : GryffinStore O :=
  match s.snd, s.sending[i]? with
  | some q, some p =>
    if q.length < chanCap then
      { s with snd := some (q ++ [p]), sending := s.sending.eraseIdx i }
    else s
  | _, _ => s

/-- A receive `<-store.GetSndChan()` by the holder of the outbound channel: the
oldest buffered payload, if any, leaves the buffer. -/
def recvSnd {O : Type} (s : GryffinStore O) : Option Payload × GryffinStore O :=
  match s.snd with
  | some (p :: q) => (some p, { s with snd := some q })
  | _ => (none, s)

/-- The method `oracleSee(prefix, f, localOnly)`: look the Oracle up, create it
when absent, call `oracle.See(f)` on it, then the remote update. -/
def oracleSee {O : Type} (D : OracleOps O) (s : GryffinStore O) (pfx : String) (f : Nat)
    (localOnly : Bool) : GryffinStore O :=
  let k := pfx
  let s1 : GryffinStore O :=
    match s.Oracles k with
    | some _ => s
    | none => { s with Oracles := mapSet s.Oracles k D.NewOracle }
  let oracle : O := (s1.Oracles k).getD D.NewOracle
  let s2 : GryffinStore O := { s1 with Oracles := mapSet s1.Oracles k (D.See oracle f) }
  remoteUpdate s2 localOnly { F := "See", T := "oracle", K := pfx, V := Sprintfx f }

/-- The method `hashesSee(prefix, h, localOnly)`. -/
def hashesSee {O : Type} (s : GryffinStore O) (pfx : String) (h : Nat) (localOnly : Bool) :
    GryffinStore O :=
  let k := pfx ++ "/" ++ FormatUint h 10
  let s1 : GryffinStore O := { s with Hashes := mapSet s.Hashes k true }
  remoteUpdate s1 localOnly { F := "See", T := "hash", K := pfx, V := Sprintfx h }

/-- The method `See(prefix, kind, v)`. -/
def See {O : Type} (D : OracleOps O) (s : GryffinStore O) (pfx kind : String) (v : Nat) :
    GryffinStore O :=
  if kind = "oracle" then oracleSee D s pfx v false
  else if kind = "hash" then hashesSee s pfx v false
  else s

/-- The method `Seen(prefix, kind, v, r)`: the answer and the store after the
call. -/
def Seen {O : Type} (D : OracleOps O) (s : GryffinStore O) (pfx kind : String) (v r : Nat) :
    Bool × GryffinStore O :=
  if kind = "oracle" then
    match s.Oracles pfx with
    | some oracle => (D.Seen oracle v r, s)
    | none => (false, s)
  else if kind = "hash" then
    let k := pfx ++ "/" ++ FormatUint v 10
    ((s.Hashes k).isSome, s)
  else (false, s)

/-- One second in nanoseconds (`time.Second`). -/
def second : Int := 1000000000

/-- The expression `time.Now().Truncate(5 * time.Second).Unix()` at the
instant `now` (nanoseconds since the Unix epoch).  `Truncate` rounds down
to a multiple of 5 s counted from the zero time; the Unix epoch lies
62135596800 s after it, a multiple of 5, so the multiples of 5 s from
either origin coincide. -/
def windowStart (now : Int) : Int := (now - now % (5 * second)) / second

/-- The method `Hit(prefix)` at the instant `now`: the answer and the store
after the call. -/
def Hit {O : Type} (s : GryffinStore O) (pfx : String) (now : Int) : Bool × GryffinStore O :=
  let ts := windowStart now
  let k := pfx ++ "/" ++ FormatInt ts 10
  match s.Hits k with
  | some v =>
    if v ≥ 5 then (false, s)
    else (true, { s with Hits := mapSet s.Hits k (v + 1) })
  | none => (true, { s with Hits := mapSet s.Hits k 1 })

/-- The body of the `for jsonPayload := range s.rcv` loop of
`processRcvMsg`. -/
def processRcvMsgBody {O : Type} (D : OracleOps O) (s : GryffinStore O) (jsonPayload : Payload) :
    GryffinStore O :=
  match Unmarshal jsonPayload with
  | none => s
  | some m =>
    if m.F = "See" then
      let v := (ParseUint m.V 16 64).1
      if m.T = "hash" then hashesSee s m.K v true
      else if m.T = "oracle" then oracleSee D s m.K v true
      else s
    else s

/-- The method `processRcvMsg()`, run over the payloads `rcv` that the channel
yields, in order. -/
def processRcvMsg {O : Type} (D : OracleOps O) (s : GryffinStore O) (rcv : List Payload) :
    GryffinStore O :=
  rcv.foldl (processRcvMsgBody D) s

/-- One operation on a store: a call of an exported method (with the clock
reading for `Hit`), the receive loop taking one payload, the send of a
detached goroutine being scheduled, or a receive from the outbound channel. -/
inductive Op where
  | See (pfx kind : String) (v : Nat)
  | Seen (pfx kind : String) (v r : Nat)
  | Hit (pfx : String) (now : Int)
  | Rcv (jsonPayload : Payload)
  | Send (i : Nat)
  | RecvSnd
  deriving DecidableEq, Repr

/-- The store after one operation. -/
def step {O : Type} (D : OracleOps O) (s : GryffinStore O) : Op → GryffinStore O
  | Op.See pfx kind v => See D s pfx kind v
  | Op.Seen pfx kind v r => (Seen D s pfx kind v r).2
  | Op.Hit pfx now => (Hit s pfx now).2
  | Op.Rcv p => processRcvMsgBody D s p
  | Op.Send i => sendStep s i
  | Op.RecvSnd => (recvSnd s).2

/-- The store after a sequence of operations, applied left to right. -/
def run {O : Type} (D : OracleOps O) (s : GryffinStore O) (ops : List Op) : GryffinStore O :=
  ops.foldl (step D) s

/-- An Oracle that keeps the list of recorded fingerprints and answers by
exact membership; used to evaluate the store on concrete inputs. -/
def listOracle : OracleOps (List Nat) :=
  { NewOracle := []
    See := fun o f => o ++ [f]
    Seen := fun o f _ => decide (f ∈ o) }

/-! ## Reading digit strings -/

/-- The number a digit string denotes in base `b`, digits read by `digitVal`,
starting from the accumulator `n` (no overflow, no validity check). -/
def digitsValueFrom (b : Nat) (n : Nat) (l : List Char) : Nat :=
  l.foldl (fun n c => n * b + (digitVal c.toNat).getD 0) n

/-- The number a digit string denotes in base `b`. -/
def digitsValue (b : Nat) (l : List Char) : Nat := digitsValueFrom b 0 l

/-- A character that `digitVal` reads as a digit below `b`. -/
def IsDigitBelow (b : Nat) (c : Char) : Prop := ∃ d, digitVal c.toNat = some d ∧ d < b

/-! ## Histories of operations -/

/-- Whether the operation records the fingerprint `f` for the key `k` in the
hash set: a call `See(k, "hash", f)`, or an inbound payload decoding to a
`See`/`hash` message with key `k` whose value parses to `f`. -/
def recordsHash (k : String) (f : Nat) : Op → Bool
  | Op.See pfx kind v => decide (pfx = k ∧ kind = "hash" ∧ v = f)
  | Op.Rcv (Payload.json m) =>
    decide (m.F = "See" ∧ m.T = "hash" ∧ m.K = k ∧ (ParseUint m.V 16 64).1 = f)
  | _ => false

/-- The fingerprint the operation hands to the Oracle of the key `k`, if any: a
call `See(k, "oracle", v)`, or an inbound payload decoding to a
`See`/`oracle` message with key `k` (the parsed value). -/
def oracleRecords (k : String) : Op → Option Nat
  | Op.See pfx kind v => if kind = "oracle" ∧ pfx = k then some v else none
  | Op.Rcv (Payload.json m) =>
    if m.F = "See" ∧ m.T = "oracle" ∧ m.K = k then some (ParseUint m.V 16 64).1 else none
  | _ => none

/-- The Oracle entry of a key after the fingerprints `fps` were handed to it
one by one, starting from the entry `o` (`none`: no Oracle yet, the first
fingerprint creates one). -/
def oracleAfter {O : Type} (D : OracleOps O) (o : Option O) (fps : List Nat) : Option O :=
  fps.foldl (fun o f => some (D.See (o.getD D.NewOracle) f)) o

/-- Successive calls `Hit(pfx)` at the instants `ts`: the answers in order and
the store after the last call. -/
def hitAll {O : Type} (s : GryffinStore O) (pfx : String) : List Int → List Bool × GryffinStore O
  | [] => ([], s)
  | t :: ts =>
    let r := Hit s pfx t
    let rest := hitAll r.2 pfx ts
    (r.1 :: rest.1, rest.2)

/-- Whether the operation is a call `Hit(k)` at an instant of the window
`[5m, 5m + 5)` s. -/
def hitsWindow (k : String) (m : Int) : Op → Bool
  | Op.Hit pfx now => decide (pfx = k ∧ windowStart now = 5 * m)
  | _ => false

/-- The instant `t` (nanoseconds) lies in the window `[5n, 5n + 5)` seconds. -/
def InWindow (n : Int) (t : Int) : Prop := 5 * n * second ≤ t ∧ t < (5 * n + 5) * second

/-! ## Base-16 encodings -/

/-- The value of a base-16 digit given by its character code: `0`-`9`,
`a`-`f`, `A`-`F`. -/
def hexDigit (c : Nat) : Option Nat :=
  if 48 ≤ c ∧ c ≤ 57 then some (c - 48)
  else if 97 ≤ c ∧ c ≤ 102 then some (c - 87)
  else if 65 ≤ c ∧ c ≤ 70 then some (c - 55)
  else none

/-- The number a string of base-16 digits denotes, most significant digit
first, continuing from `n`; `none` when a character is not a base-16 digit. -/
def hexValueFrom (n : Nat) : List Char → Option Nat
  | [] => some n
  | c :: cs =>
    match hexDigit c.toNat with
    | none => none
    | some d => hexValueFrom (n * 16 + d) cs

/-- The string `V` is a base-16 encoding of `v`: a non-empty string of
base-16 digits (either case, leading zeros allowed) denoting `v`. -/
def IsHexEncoding (V : String) (v : Nat) : Prop :=
  V.data ≠ [] ∧ hexValueFrom 0 V.data = some v

/-! ## Sequences of rate-limiter calls -/

/-- Successive calls `Hit(key)` for a list of (key, instant) pairs: the key and
answer of each call, in order, and the store after the last call. -/
def hitCalls {O : Type} (s : GryffinStore O) :
    List (String × Int) → List (String × Bool) × GryffinStore O
  | [] => ([], s)
  | c :: cs =>
    let r := Hit s c.1 c.2
    let rest := hitCalls r.2 cs
    ((c.1, r.1) :: rest.1, rest.2)

/-- Every counter of the hits map lies between 1 and 5. -/
def HitsInRange {O : Type} (s : GryffinStore O) : Prop :=
  ∀ (K : String) (v : Int), s.Hits K = some v → 1 ≤ v ∧ v ≤ 5

/-- Among the calls at the instants `ts` with the answers `bs`, the number of
those that returned true at an instant of the span `[a, a + 5 s)`. -/
def permitsInSpan (a : Int) (bs : List Bool) (ts : List Int) : Nat :=
  (bs.zip ts).countP (fun x => x.1 && decide (a ≤ x.2 ∧ x.2 < a + 5 * second))

/-! ## Interleaved callers of `oracleSee` -/

/-- Where a caller of `oracleSee` stands between the sections it runs under the
lock: before the read-locked lookup, before the write-locked creation (the
lookup found nothing), before `oracle.See(f)` on the pointer it holds, or
past it. -/
inductive SeePc where
  | lookup
  | create
  | record (oracle : Nat)
  | done
  deriving DecidableEq, Repr

/-- One call `oracleSee(pfx, f, _)` in progress. -/
structure OracleCall where
  pfx : String
  f : Nat
  pc : SeePc
  deriving DecidableEq, Repr

/-- The Oracle map with its pointers made explicit: `heap` holds the Oracle
instances allocated so far (the address of an instance is its position), and
`Oracles` maps a key to the address its `*distance.Oracle` holds. -/
structure PtrStore (O : Type) where
  heap : List O
  Oracles : String → Option Nat

/-- One lock-delimited section of `oracleSee`, run atomically by the caller `c`:
* `lookup`: `s.Mu.RLock(); oracle, ok := s.Oracles[k]; s.Mu.RUnlock()`;
* `create` (taken when `!ok`): `s.Mu.Lock(); s.Oracles[k] = distance.NewOracle();
  oracle = s.Oracles[k]; s.Mu.Unlock()`, with no second lookup under the lock;
* `record`: `oracle.See(f)` on the instance the caller's pointer refers to. -/
def oracleSeeStep {O : Type} (D : OracleOps O) (st : PtrStore O) (c : OracleCall) :
    PtrStore O × OracleCall :=
  match c.pc with
  | SeePc.lookup =>
    match st.Oracles c.pfx with
    | some p => (st, { c with pc := SeePc.record p })
    | none => (st, { c with pc := SeePc.create })
  | SeePc.create =>
    ({ heap := st.heap ++ [D.NewOracle], Oracles := mapSet st.Oracles c.pfx st.heap.length },
      { c with pc := SeePc.record st.heap.length })
  | SeePc.record p =>
    ({ st with heap := st.heap.set p (D.See (st.heap.getD p D.NewOracle) c.f) },
      { c with pc := SeePc.done })
  | SeePc.done => (st, c)

/-- Concurrent callers under a schedule: each entry of the schedule names the
caller that runs its next section. -/
def interleave {O : Type} (D : OracleOps O) :
    PtrStore O → List OracleCall → List Nat → PtrStore O × List OracleCall
  | st, cs, [] => (st, cs)
  | st, cs, i :: sched =>
    match cs[i]? with
    | none => interleave D st cs sched
    | some c => interleave D (oracleSeeStep D st c).1 (cs.set i (oracleSeeStep D st c).2) sched

/-- The Oracle a key refers to in a store with explicit pointers. -/
def PtrStore.oracleOf {O : Type} (st : PtrStore O) (k : String) : Option O :=
  match st.Oracles k with
  | some p => st.heap[p]?
  | none => none

/-- The pointers of the Oracle map are allocated addresses, and two keys never
share one. -/
def PtrStore.WellFormed {O : Type} (st : PtrStore O) : Prop :=
  (∀ k p, st.Oracles k = some p → p < st.heap.length)
  ∧ (∀ k k' p, st.Oracles k = some p → st.Oracles k' = some p → k = k')

theorem digitVal_digitChar : ∀ d, d < 36 → digitVal (digitChar d).toNat = some d := by
  decide

theorem digitChar_mem (d : Nat) : digitChar d ∈ '?' :: digits := by
  unfold digitChar
  rw [List.getD_eq_getElem?_getD]
  cases h : digits[d]? with
  | none => simp
  | some c =>
    have := List.getElem?_mem h
    simp [this]

theorem digitChar_ne_slash (d : Nat) : digitChar d ≠ '/' := by
  intro h
  have hm := digitChar_mem d
  rw [h] at hm
  revert hm
  decide

theorem digitChar_ne_minus (d : Nat) : digitChar d ≠ '-' := by
  intro h
  have hm := digitChar_mem d
  rw [h] at hm
  revert hm
  decide

theorem formatBitsLoop_append (b : Nat) :
    ∀ fuel u a, formatBitsLoop b fuel u a = formatBitsLoop b fuel u [] ++ a := by
  intro fuel
  induction fuel with
  | zero => intro u a; simp [formatBitsLoop]
  | succ n ih =>
    intro u a
    simp only [formatBitsLoop]
    split
    · rw [ih (u / b) (digitChar (u % b) :: a), ih (u / b) [digitChar (u % b)]]
      simp
    · simp

/-- Every character the digit loop writes is a digit character. -/
theorem formatBitsLoop_chars (b : Nat) :
    ∀ fuel u, ∀ c ∈ formatBitsLoop b fuel u [], ∃ d, c = digitChar d := by
  intro fuel
  induction fuel with
  | zero => intro u c hc; simp [formatBitsLoop] at hc; exact ⟨u, hc⟩
  | succ n ih =>
    intro u c hc
    simp only [formatBitsLoop] at hc
    split at hc
    · rw [formatBitsLoop_append] at hc
      simp at hc
      rcases hc with hc | hc
      · exact ih _ c hc
      · exact ⟨_, hc⟩
    · simp at hc; exact ⟨u, hc⟩

theorem formatBitsLoop_ne_nil (b : Nat) : ∀ fuel u a, formatBitsLoop b fuel u a ≠ [] := by
  intro fuel
  induction fuel with
  | zero => intro u a; simp [formatBitsLoop]
  | succ n ih =>
    intro u a
    simp only [formatBitsLoop]
    split
    · exact ih _ _
    · simp

/-- With enough iterations every character written is a digit below the
base. -/
theorem formatBitsLoop_digits (b : Nat) (hb : 2 ≤ b) :
    ∀ fuel u, u ≤ fuel → ∀ c ∈ formatBitsLoop b fuel u [], ∃ d, d < b ∧ c = digitChar d := by
  intro fuel
  induction fuel with
  | zero =>
    intro u hu c hc
    simp [formatBitsLoop] at hc
    exact ⟨u, by omega, hc⟩
  | succ n ih =>
    intro u hu c hc
    simp only [formatBitsLoop] at hc
    split at hc
    next hle =>
      rw [formatBitsLoop_append] at hc
      simp at hc
      have hdiv : u / b ≤ n := by
        have : u / b < u := Nat.div_lt_self (by omega) (by omega)
        omega
      rcases hc with hc | hc
      · exact ih _ hdiv c hc
      · exact ⟨u % b, Nat.mod_lt _ (by omega), hc⟩
    next hlt =>
      simp at hc
      exact ⟨u, by omega, hc⟩

theorem digitsValueFrom_append (b n : Nat) (l₁ l₂ : List Char) :
    digitsValueFrom b n (l₁ ++ l₂) = digitsValueFrom b (digitsValueFrom b n l₁) l₂ := by
  simp [digitsValueFrom, List.foldl_append]

/-- Reading back what the digit loop wrote gives the number formatted. -/
theorem digitsValue_formatBitsLoop (b : Nat) (hb : 2 ≤ b) (hb' : b ≤ 36) :
    ∀ fuel u, u ≤ fuel → digitsValue b (formatBitsLoop b fuel u []) = u := by
  intro fuel
  induction fuel with
  | zero =>
    intro u hu
    have h0 : u = 0 := by omega
    subst h0
    simp [formatBitsLoop, digitsValue, digitsValueFrom, digitVal_digitChar 0 (by omega)]
  | succ n ih =>
    intro u hu
    simp only [formatBitsLoop]
    split
    next hle =>
      have hdiv : u / b ≤ n := by
        have : u / b < u := Nat.div_lt_self (by omega) (by omega)
        omega
      rw [formatBitsLoop_append]
      unfold digitsValue
      rw [digitsValueFrom_append]
      have := ih (u / b) hdiv
      unfold digitsValue at this
      rw [this]
      have hm : u % b < 36 := lt_of_lt_of_le (Nat.mod_lt _ (by omega)) hb'
      simp [digitsValueFrom, digitVal_digitChar _ hm]
      exact Nat.div_add_mod' u b
    next hlt =>
      have hm : u < 36 := by omega
      simp [digitsValue, digitsValueFrom, digitVal_digitChar _ hm]

theorem digitsValue_formatBits (b : Nat) (hb : 2 ≤ b) (hb' : b ≤ 36) (u : Nat) :
    digitsValue b (formatBits u b) = u :=
  digitsValue_formatBitsLoop b hb hb' u u (le_refl u)

theorem formatBits_injective (b : Nat) (hb : 2 ≤ b) (hb' : b ≤ 36) (u v : Nat)
    (h : formatBits u b = formatBits v b) : u = v := by
  have hu := digitsValue_formatBits b hb hb' u
  have hv := digitsValue_formatBits b hb hb' v
  rw [h] at hu
  omega

theorem formatBits_no_slash (u b : Nat) : '/' ∉ formatBits u b := by
  intro h
  obtain ⟨d, hd⟩ := formatBitsLoop_chars b u u '/' h
  exact digitChar_ne_slash d hd.symm

theorem formatBits_isDigitBelow (b : Nat) (hb : 2 ≤ b) (hb' : b ≤ 36) (u : Nat) :
    ∀ c ∈ formatBits u b, IsDigitBelow b c := by
  intro c hc
  obtain ⟨d, hd, rfl⟩ := formatBitsLoop_digits b hb u u (le_refl u) c hc
  exact ⟨d, digitVal_digitChar d (by omega), hd⟩

theorem FormatUint_injective (u v : Nat) (h : FormatUint u 10 = FormatUint v 10) : u = v := by
  unfold FormatUint at h
  exact formatBits_injective 10 (by omega) (by omega) u v (congrArg String.data h)

theorem FormatInt_injective (i j : Int) (h : FormatInt i 10 = FormatInt j 10) : i = j := by
  unfold FormatInt at h
  have hhead : ∀ u l, '-' :: l ≠ formatBits u 10 := by
    intro u l hl
    have hm : '-' ∈ formatBits u 10 := by rw [← hl]; simp
    obtain ⟨d, hd⟩ := formatBitsLoop_chars 10 u u '-' hm
    exact digitChar_ne_minus d hd.symm
  by_cases hi : i < 0 <;> by_cases hj : j < 0 <;> simp only [hi, hj, if_true, if_false] at h
  · have h1 : '-' :: formatBits (-i).toNat 10 = '-' :: formatBits (-j).toNat 10 :=
      congrArg String.data h
    have h2 := formatBits_injective 10 (by omega) (by omega) _ _ (List.cons.inj h1).2
    omega
  · exact absurd (congrArg String.data h) (hhead _ _)
  · exact absurd (congrArg String.data h).symm (hhead _ _)
  · have h2 := formatBits_injective 10 (by omega) (by omega) _ _ (congrArg String.data h)
    omega

/-- A string ending in `/` and a tail without `/` splits in only one way. -/
theorem slash_split_unique :
    ∀ (l₁ l₂ d₁ d₂ : List Char), '/' ∉ d₁ → '/' ∉ d₂ →
      l₁ ++ '/' :: d₁ = l₂ ++ '/' :: d₂ → l₁ = l₂ ∧ d₁ = d₂ := by
  intro l₁
  induction l₁ with
  | nil =>
    intro l₂ d₁ d₂ h₁ h₂ h
    cases l₂ with
    | nil => simpa using h
    | cons y l₂ =>
      simp at h
      exact absurd (by rw [h.2]; simp) h₁
  | cons x l₁ ih =>
    intro l₂ d₁ d₂ h₁ h₂ h
    cases l₂ with
    | nil =>
      simp at h
      exact absurd (by rw [← h.2]; simp) h₂
    | cons y l₂ =>
      simp at h
      obtain ⟨hxy, ht⟩ := h
      obtain ⟨hl, hd⟩ := ih l₂ d₁ d₂ h₁ h₂ ht
      exact ⟨by rw [hxy, hl], hd⟩

/-- The key of the hash set determines the pair it was built from. -/
theorem hashKey_injective (k₁ k₂ : String) (f₁ f₂ : Nat)
    (h : k₁ ++ "/" ++ FormatUint f₁ 10 = k₂ ++ "/" ++ FormatUint f₂ 10) :
    k₁ = k₂ ∧ f₁ = f₂ := by
  have hd := congrArg String.data h
  simp only [String.data_append, List.append_assoc] at hd
  simp only [List.singleton_append] at hd
  obtain ⟨hk, hf⟩ := slash_split_unique _ _ _ _ (formatBits_no_slash f₁ 10)
    (formatBits_no_slash f₂ 10) hd
  refine ⟨String.ext hk, ?_⟩
  exact formatBits_injective 10 (by omega) (by omega) _ _ hf

theorem digitsValueFrom_ge (b : Nat) (hb : 1 ≤ b) :
    ∀ (l : List Char) (n : Nat), n ≤ digitsValueFrom b n l := by
  intro l
  induction l with
  | nil => intro n; simp [digitsValueFrom]
  | cons c cs ih =>
    intro n
    have h := ih (n * b + (digitVal c.toNat).getD 0)
    have h' : digitsValueFrom b n (c :: cs)
        = digitsValueFrom b (n * b + (digitVal c.toNat).getD 0) cs := by
      simp [digitsValueFrom]
    rw [h']
    have : n ≤ n * b := Nat.le_mul_of_pos_right n hb
    omega

/-- On a string of digits below the base whose value fits 64 bits, the
`ParseUint` loop neither overflows nor fails and returns that value. -/
theorem parseUintLoop_ok (b : Nat) (hb : 2 ≤ b) :
    ∀ (l : List Char) (n : Nat), (∀ c ∈ l, IsDigitBelow b c) →
      digitsValueFrom b n l < 2 ^ 64 →
      parseUintLoop b ((2 ^ 64 - 1) / b + 1) (2 ^ 64 - 1) l n = (digitsValueFrom b n l, none) := by
  intro l
  induction l with
  | nil => intro n _ _; simp [parseUintLoop, digitsValueFrom]
  | cons c cs ih =>
    intro n hl hv
    obtain ⟨d, hd, hdb⟩ := hl c (List.mem_cons_self c cs)
    have hstep : digitsValueFrom b n (c :: cs) = digitsValueFrom b (n * b + d) cs := by
      simp [digitsValueFrom, hd]
    rw [hstep] at hv ⊢
    have hge := digitsValueFrom_ge b (by omega) cs (n * b + d)
    have hnb : n * b + d < 2 ^ 64 := lt_of_le_of_lt hge hv
    have hcut : ¬ n ≥ (2 ^ 64 - 1) / b + 1 := by
      intro hc
      have h1 : (2 ^ 64 - 1) / b < n := hc
      have h2 : 2 ^ 64 - 1 < n * b := (Nat.div_lt_iff_lt_mul (by omega)).mp h1
      omega
    have hm1 : (n * b) % 2 ^ 64 = n * b := Nat.mod_eq_of_lt (by omega)
    have hm2 : (n * b + d) % 2 ^ 64 = n * b + d := Nat.mod_eq_of_lt hnb
    have hno : ¬ (n * b + d < n * b ∨ n * b + d > 2 ^ 64 - 1) := by omega
    simp only [parseUintLoop, hd]
    rw [if_neg (by omega), if_neg hcut]
    simp only [hm1, hm2]
    rw [if_neg hno]
    exact ih (n * b + d) (fun c' hc' => hl c' (List.mem_cons_of_mem c hc')) hv

/-- When the `ParseUint` loop reports an error, the value it returns is 0 for a
syntax error and `maxVal` for a range error; there is no other case. -/
theorem parseUintLoop_err (b cutoff maxVal : Nat) :
    ∀ (l : List Char) (n v : Nat) (e : NumError),
      parseUintLoop b cutoff maxVal l n = (v, some e) →
      (e = NumError.ErrSyntax ∧ v = 0) ∨ (e = NumError.ErrRange ∧ v = maxVal) := by
  intro l
  induction l with
  | nil => intro n v e h; simp [parseUintLoop] at h
  | cons c cs ih =>
    intro n v e h
    simp only [parseUintLoop] at h
    split at h
    · simp only [Prod.mk.injEq, Option.some.injEq] at h
      exact Or.inl ⟨h.2.symm, h.1.symm⟩
    · split at h
      · simp only [Prod.mk.injEq, Option.some.injEq] at h
        exact Or.inl ⟨h.2.symm, h.1.symm⟩
      · split at h
        · simp only [Prod.mk.injEq, Option.some.injEq] at h
          exact Or.inr ⟨h.2.symm, h.1.symm⟩
        · split at h
          · simp only [Prod.mk.injEq, Option.some.injEq] at h
            exact Or.inr ⟨h.2.symm, h.1.symm⟩
          · exact ih _ v e h

theorem ParseUint_err (s : String) (v : Nat) (e : NumError)
    (h : ParseUint s 16 64 = (v, some e)) :
    (e = NumError.ErrSyntax ∧ v = 0) ∨ (e = NumError.ErrRange ∧ v = 2 ^ 64 - 1) := by
  unfold ParseUint at h
  split at h
  · simp only [Prod.mk.injEq, Option.some.injEq] at h
    exact Or.inl ⟨h.2.symm, h.1.symm⟩
  · rw [if_neg (by omega), if_neg (by omega)] at h
    exact parseUintLoop_err _ _ _ _ _ _ _ h

/-- A non-empty string of base-16 digits whose value fits 64 bits parses to
that value, without error. -/
theorem ParseUint_of_digits (s : String) (hne : s.data ≠ [])
    (hd : ∀ c ∈ s.data, IsDigitBelow 16 c) (hv : digitsValue 16 s.data < 2 ^ 64) :
    ParseUint s 16 64 = (digitsValue 16 s.data, none) := by
  have hs : s ≠ "" := by
    intro h
    rw [h] at hne
    exact hne rfl
  unfold ParseUint
  rw [if_neg hs, if_neg (by omega), if_neg (by omega)]
  exact parseUintLoop_ok 16 (by omega) s.data 0 hd hv

/-- Parsing in base 16 undoes `%x` formatting of a 64-bit value. -/
theorem ParseUint_Sprintfx (f : Nat) (hf : f < 2 ^ 64) :
    ParseUint (Sprintfx f) 16 64 = (f, none) := by
  have hval : digitsValue 16 (Sprintfx f).data = f :=
    digitsValue_formatBits 16 (by omega) (by omega) f
  have h := ParseUint_of_digits (Sprintfx f) (formatBitsLoop_ne_nil 16 f f [])
    (formatBits_isDigitBelow 16 (by omega) (by omega) f) (by rw [hval]; exact hf)
  rw [hval] at h
  exact h

/-! ## Field-by-field effect of the store operations -/

@[simp] theorem mapSet_same {α : Type} (m : String → Option α) (k : String) (v : α) :
    mapSet m k v k = some v := by
  simp [mapSet]

theorem mapSet_other {α : Type} (m : String → Option α) (k k' : String) (v : α)
    (h : k' ≠ k) : mapSet m k v k' = m k' := by
  simp [mapSet, h]

@[simp] theorem mapSet_mapSet {α : Type} (m : String → Option α) (k : String) (v w : α) :
    mapSet (mapSet m k v) k w = mapSet m k w := by
  funext k'
  by_cases h : k' = k <;> simp [mapSet, h]

@[simp] theorem remoteUpdate_localOnly {O : Type} (s : GryffinStore O) (m : PublishMessage) :
    remoteUpdate s true m = s := by
  simp [remoteUpdate]

@[simp] theorem remoteUpdate_Oracles {O : Type} (s : GryffinStore O) (lo : Bool)
    (m : PublishMessage) : (remoteUpdate s lo m).Oracles = s.Oracles := by
  unfold remoteUpdate
  split <;> rfl

@[simp] theorem remoteUpdate_Hashes {O : Type} (s : GryffinStore O) (lo : Bool)
    (m : PublishMessage) : (remoteUpdate s lo m).Hashes = s.Hashes := by
  unfold remoteUpdate
  split <;> rfl

@[simp] theorem remoteUpdate_Hits {O : Type} (s : GryffinStore O) (lo : Bool)
    (m : PublishMessage) : (remoteUpdate s lo m).Hits = s.Hits := by
  unfold remoteUpdate
  split <;> rfl

@[simp] theorem remoteUpdate_snd {O : Type} (s : GryffinStore O) (lo : Bool)
    (m : PublishMessage) : (remoteUpdate s lo m).snd = s.snd := by
  unfold remoteUpdate
  split <;> rfl

/-- The sends in progress after the remote update of a local call: one more on
a store with outbound channel, none on a store without. -/
theorem remoteUpdate_sending {O : Type} (s : GryffinStore O) (m : PublishMessage) :
    (remoteUpdate s false m).sending
      = if s.snd.isSome then s.sending ++ [Marshal m] else s.sending := by
  unfold remoteUpdate
  cases h : s.snd <;> simp [h]

@[simp] theorem sendStep_Oracles {O : Type} (s : GryffinStore O) (i : Nat) :
    (sendStep s i).Oracles = s.Oracles := by
  unfold sendStep
  split
  · split <;> rfl
  · rfl

@[simp] theorem sendStep_Hashes {O : Type} (s : GryffinStore O) (i : Nat) :
    (sendStep s i).Hashes = s.Hashes := by
  unfold sendStep
  split
  · split <;> rfl
  · rfl

@[simp] theorem sendStep_Hits {O : Type} (s : GryffinStore O) (i : Nat) :
    (sendStep s i).Hits = s.Hits := by
  unfold sendStep
  split
  · split <;> rfl
  · rfl

@[simp] theorem recvSnd_Oracles {O : Type} (s : GryffinStore O) :
    (recvSnd s).2.Oracles = s.Oracles := by
  unfold recvSnd
  split <;> rfl

@[simp] theorem recvSnd_Hashes {O : Type} (s : GryffinStore O) :
    (recvSnd s).2.Hashes = s.Hashes := by
  unfold recvSnd
  split <;> rfl

@[simp] theorem recvSnd_Hits {O : Type} (s : GryffinStore O) :
    (recvSnd s).2.Hits = s.Hits := by
  unfold recvSnd
  split <;> rfl

@[simp] theorem hashesSee_Hashes {O : Type} (s : GryffinStore O) (k : String) (h : Nat)
    (lo : Bool) :
    (hashesSee s k h lo).Hashes = mapSet s.Hashes (k ++ "/" ++ FormatUint h 10) true := by
  simp [hashesSee]

@[simp] theorem hashesSee_Oracles {O : Type} (s : GryffinStore O) (k : String) (h : Nat)
    (lo : Bool) : (hashesSee s k h lo).Oracles = s.Oracles := by
  simp [hashesSee]

@[simp] theorem hashesSee_Hits {O : Type} (s : GryffinStore O) (k : String) (h : Nat)
    (lo : Bool) : (hashesSee s k h lo).Hits = s.Hits := by
  simp [hashesSee]

@[simp] theorem hashesSee_snd {O : Type} (s : GryffinStore O) (k : String) (h : Nat)
    (lo : Bool) : (hashesSee s k h lo).snd = s.snd := by
  simp [hashesSee]

@[simp] theorem hashesSee_sending_localOnly {O : Type} (s : GryffinStore O) (k : String)
    (h : Nat) : (hashesSee s k h true).sending = s.sending := by
  simp [hashesSee]

@[simp] theorem oracleSee_Hashes {O : Type} (D : OracleOps O) (s : GryffinStore O) (k : String)
    (f : Nat) (lo : Bool) : (oracleSee D s k f lo).Hashes = s.Hashes := by
  unfold oracleSee
  cases h : s.Oracles k <;> simp [h]

@[simp] theorem oracleSee_Hits {O : Type} (D : OracleOps O) (s : GryffinStore O) (k : String)
    (f : Nat) (lo : Bool) : (oracleSee D s k f lo).Hits = s.Hits := by
  unfold oracleSee
  cases h : s.Oracles k <;> simp [h]

@[simp] theorem oracleSee_snd {O : Type} (D : OracleOps O) (s : GryffinStore O)
    (k : String) (f : Nat) (lo : Bool) : (oracleSee D s k f lo).snd = s.snd := by
  unfold oracleSee
  cases h : s.Oracles k <;> simp [h]

@[simp] theorem oracleSee_sending_localOnly {O : Type} (D : OracleOps O) (s : GryffinStore O)
    (k : String) (f : Nat) : (oracleSee D s k f true).sending = s.sending := by
  unfold oracleSee
  cases h : s.Oracles k <;> simp [h]

/-- The Oracle map after `oracleSee`: the entry of the key holds the Oracle that
was there (a new one when there was none) after `See(f)`. -/
theorem oracleSee_Oracles {O : Type} (D : OracleOps O) (s : GryffinStore O) (k : String)
    (f : Nat) (lo : Bool) :
    (oracleSee D s k f lo).Oracles
      = mapSet s.Oracles k (D.See ((s.Oracles k).getD D.NewOracle) f) := by
  unfold oracleSee
  cases h : s.Oracles k <;> simp [h]

@[simp] theorem Seen_store {O : Type} (D : OracleOps O) (s : GryffinStore O) (k kind : String)
    (v r : Nat) : (Seen D s k kind v r).2 = s := by
  unfold Seen
  split
  · split <;> rfl
  · split <;> rfl

theorem Seen_hash {O : Type} (D : OracleOps O) (s : GryffinStore O) (k : String) (v r : Nat) :
    (Seen D s k "hash" v r).1 = (s.Hashes (k ++ "/" ++ FormatUint v 10)).isSome := by
  simp [Seen]

theorem See_hash {O : Type} (D : OracleOps O) (s : GryffinStore O) (k : String) (v : Nat) :
    See D s k "hash" v = hashesSee s k v false := by
  simp [See]

theorem See_oracle {O : Type} (D : OracleOps O) (s : GryffinStore O) (k : String) (v : Nat) :
    See D s k "oracle" v = oracleSee D s k v false := by
  simp [See]

@[simp] theorem Hit_Hashes {O : Type} (s : GryffinStore O) (k : String) (now : Int) :
    (Hit s k now).2.Hashes = s.Hashes := by
  unfold Hit
  simp only
  split
  · split <;> rfl
  · rfl

@[simp] theorem Hit_Oracles {O : Type} (s : GryffinStore O) (k : String) (now : Int) :
    (Hit s k now).2.Oracles = s.Oracles := by
  unfold Hit
  simp only
  split
  · split <;> rfl
  · rfl

@[simp] theorem Hit_snd {O : Type} (s : GryffinStore O) (k : String) (now : Int) :
    (Hit s k now).2.snd = s.snd := by
  unfold Hit
  simp only
  split
  · split <;> rfl
  · rfl

@[simp] theorem Hit_sending {O : Type} (s : GryffinStore O) (k : String) (now : Int) :
    (Hit s k now).2.sending = s.sending := by
  unfold Hit
  simp only
  split
  · split <;> rfl
  · rfl

/-- The receive loop body on a decoded message, spelled out. -/
theorem processRcvMsgBody_json {O : Type} (D : OracleOps O) (s : GryffinStore O)
    (m : PublishMessage) :
    processRcvMsgBody D s (Payload.json m)
      = if m.F = "See" then
          (if m.T = "hash" then hashesSee s m.K (ParseUint m.V 16 64).1 true
           else if m.T = "oracle" then oracleSee D s m.K (ParseUint m.V 16 64).1 true
           else s)
        else s := by
  simp [processRcvMsgBody, Unmarshal]

@[simp] theorem processRcvMsgBody_malformed {O : Type} (D : OracleOps O) (s : GryffinStore O)
    (raw : List Nat) : processRcvMsgBody D s (Payload.malformed raw) = s := by
  simp [processRcvMsgBody, Unmarshal]

/-- An operation that does not record `(k, f)` leaves the hash-set entry of
`(k, f)` as it was. -/
theorem step_Hashes_of_not_records {O : Type} (D : OracleOps O) (s : GryffinStore O) (op : Op)
    (k : String) (f : Nat) (h : recordsHash k f op = false) :
    (step D s op).Hashes (k ++ "/" ++ FormatUint f 10) = s.Hashes (k ++ "/" ++ FormatUint f 10) := by
  cases op with
  | Send i => simp [step]
  | RecvSnd => simp [step]
  | See pfx kind v =>
    simp only [step, See]
    by_cases ho : kind = "oracle"
    · simp [ho]
    · rw [if_neg ho]
      by_cases hh : kind = "hash"
      · rw [if_pos hh, hashesSee_Hashes]
        apply mapSet_other
        intro hk
        obtain ⟨h1, h2⟩ := hashKey_injective _ _ _ _ hk
        simp [recordsHash, hh, h1, h2] at h
      · rw [if_neg hh]
  | Seen pfx kind v r => simp [step]
  | Hit pfx now => simp [step]
  | Rcv p =>
    cases p with
    | malformed raw => simp [step]
    | json m =>
      simp only [step, processRcvMsgBody_json]
      by_cases hF : m.F = "See"
      · rw [if_pos hF]
        by_cases hT : m.T = "hash"
        · rw [if_pos hT, hashesSee_Hashes]
          apply mapSet_other
          intro hk
          obtain ⟨h1, h2⟩ := hashKey_injective _ _ _ _ hk
          simp [recordsHash, hF, hT, h1, h2] at h
        · rw [if_neg hT]
          by_cases hT' : m.T = "oracle"
          · simp [hT']
          · rw [if_neg hT']
      · rw [if_neg hF]

theorem run_Hashes_of_not_records {O : Type} (D : OracleOps O) (k : String) (f : Nat) :
    ∀ (ops : List Op) (s : GryffinStore O), (∀ op ∈ ops, recordsHash k f op = false) →
      (run D s ops).Hashes (k ++ "/" ++ FormatUint f 10)
        = s.Hashes (k ++ "/" ++ FormatUint f 10) := by
  intro ops
  induction ops with
  | nil => intro s _; rfl
  | cons op ops ih =>
    intro s h
    have h1 := ih (step D s op) (fun o ho => h o (List.mem_cons_of_mem op ho))
    have h2 := step_Hashes_of_not_records D s op k f (h op (List.mem_cons_self op ops))
    simp only [run, List.foldl_cons] at h1 ⊢
    rw [h1, h2]

/-- The Oracle entry of `k` after one operation. -/
theorem step_Oracles {O : Type} (D : OracleOps O) (s : GryffinStore O) (op : Op) (k : String) :
    (step D s op).Oracles k = oracleAfter D (s.Oracles k) (Option.toList (oracleRecords k op)) := by
  cases op with
  | Send i => simp [step, oracleRecords, oracleAfter]
  | RecvSnd => simp [step, oracleRecords, oracleAfter]
  | See pfx kind v =>
    simp only [step, See, oracleRecords]
    by_cases ho : kind = "oracle"
    · rw [if_pos ho, oracleSee_Oracles]
      by_cases hk : pfx = k
      · subst hk
        simp [ho, oracleAfter]
      · have hk' : k ≠ pfx := fun e => hk e.symm
        simp [ho, hk, oracleAfter, mapSet_other _ _ _ _ hk']
    · rw [if_neg ho]
      by_cases hh : kind = "hash"
      · simp [hh, ho, oracleAfter]
      · simp [hh, ho, oracleAfter]
  | Seen pfx kind v r => simp [step, oracleRecords, oracleAfter]
  | Hit pfx now => simp [step, oracleRecords, oracleAfter]
  | Rcv p =>
    cases p with
    | malformed raw => simp [step, oracleRecords, oracleAfter]
    | json m =>
      simp only [step, processRcvMsgBody_json, oracleRecords]
      by_cases hF : m.F = "See"
      · rw [if_pos hF]
        by_cases hT : m.T = "hash"
        · have hT' : m.T ≠ "oracle" := by rw [hT]; decide
          simp [hT, hF, oracleAfter]
        · rw [if_neg hT]
          by_cases hT' : m.T = "oracle"
          · rw [if_pos hT', oracleSee_Oracles]
            by_cases hk : m.K = k
            · subst hk
              simp [hF, hT', oracleAfter]
            · have hk' : k ≠ m.K := fun e => hk e.symm
              simp [hF, hT', hk, oracleAfter, mapSet_other _ _ _ _ hk']
          · simp [hF, hT', oracleAfter]
      · simp [hF, oracleAfter]

theorem oracleAfter_append {O : Type} (D : OracleOps O) (o : Option O) (l₁ l₂ : List Nat) :
    oracleAfter D o (l₁ ++ l₂) = oracleAfter D (oracleAfter D o l₁) l₂ := by
  simp [oracleAfter, List.foldl_append]

theorem oracleAfter_some {O : Type} (D : OracleOps O) :
    ∀ (fps : List Nat) (o : O), oracleAfter D (some o) fps = some (fps.foldl D.See o) := by
  intro fps
  induction fps with
  | nil => intro o; rfl
  | cons f fps ih =>
    intro o
    have := ih (D.See o f)
    simpa [oracleAfter] using this

theorem oracleAfter_none {O : Type} (D : OracleOps O) (fps : List Nat) :
    oracleAfter D none fps
      = if fps = [] then none else some (fps.foldl D.See D.NewOracle) := by
  cases fps with
  | nil => rfl
  | cons f fps =>
    have := oracleAfter_some D fps (D.See D.NewOracle f)
    simpa [oracleAfter] using this

/-- The Oracle entry of `k` after a sequence of operations. -/
theorem run_Oracles {O : Type} (D : OracleOps O) (k : String) :
    ∀ (ops : List Op) (s : GryffinStore O),
      (run D s ops).Oracles k = oracleAfter D (s.Oracles k) (ops.filterMap (oracleRecords k)) := by
  intro ops
  induction ops with
  | nil => intro s; rfl
  | cons op ops ih =>
    intro s
    have h1 := ih (step D s op)
    simp only [run, List.foldl_cons] at h1 ⊢
    rw [h1, step_Oracles]
    cases hr : oracleRecords k op with
    | none => simp [List.filterMap_cons, hr, oracleAfter]
    | some v => simp [List.filterMap_cons, hr, oracleAfter]

theorem FormatInt_no_slash (i : Int) : '/' ∉ (FormatInt i 10).data := by
  unfold FormatInt
  split
  · intro h
    simp only [List.mem_cons] at h
    rcases h with h | h
    · exact absurd h (by decide)
    · exact formatBits_no_slash _ _ h
  · exact formatBits_no_slash _ _

/-- The key of a hit counter determines the key and window it was built from. -/
theorem hitsKey_injective (k₁ k₂ : String) (i j : Int)
    (h : k₁ ++ "/" ++ FormatInt i 10 = k₂ ++ "/" ++ FormatInt j 10) :
    k₁ = k₂ ∧ i = j := by
  have hd := congrArg String.data h
  simp only [String.data_append, List.append_assoc] at hd
  simp only [List.singleton_append] at hd
  obtain ⟨hk, hf⟩ := slash_split_unique _ _ _ _ (FormatInt_no_slash i) (FormatInt_no_slash j) hd
  exact ⟨String.ext hk, FormatInt_injective i j (String.ext hf)⟩

/-- Every instant of the window `[5n, 5n + 5)` truncates to `5n`. -/
theorem windowStart_of_inWindow (n t : Int) (h : InWindow n t) : windowStart t = 5 * n := by
  unfold InWindow second at h
  unfold windowStart second
  omega

/-- One call of `Hit` in terms of the counter `c` of its bucket (0 when the
bucket key is absent): the answer, the counter afterwards, and the other
counters. -/
theorem Hit_spec {O : Type} (s : GryffinStore O) (k : String) (now : Int) (c : Int)
    (hc : (s.Hits (k ++ "/" ++ FormatInt (windowStart now) 10)).getD 0 = c) (h0 : 0 ≤ c) :
    (Hit s k now).1 = decide (c < 5)
    ∧ ((Hit s k now).2.Hits (k ++ "/" ++ FormatInt (windowStart now) 10)).getD 0
        = (if c < 5 then c + 1 else c)
    ∧ (∀ K, K ≠ k ++ "/" ++ FormatInt (windowStart now) 10 → (Hit s k now).2.Hits K = s.Hits K) := by
  cases hv : s.Hits (k ++ "/" ++ FormatInt (windowStart now) 10) with
  | none =>
    rw [hv] at hc
    simp only [Option.getD_none] at hc
    subst hc
    simp only [Hit, hv]
    refine ⟨by simp, by simp, ?_⟩
    intro K hK
    simp [mapSet_other _ _ _ _ hK]
  | some v =>
    rw [hv] at hc
    simp only [Option.getD_some] at hc
    subst hc
    by_cases h5 : v ≥ 5
    · have h5' : ¬ v < 5 := by omega
      simp only [Hit, hv, h5, if_true]
      exact ⟨by simp [h5'], by simp [h5'], fun _ _ => trivial⟩
    · have h5' : v < 5 := by omega
      simp only [Hit, hv, h5, if_false]
      refine ⟨by simp [h5'], by simp [h5'], ?_⟩
      intro K hK
      simp [mapSet_other _ _ _ _ hK]

/-- Successive hits inside one window: the answers count the counter up to 5,
and no other counter changes. -/
theorem hitAll_spec {O : Type} (k : String) (n : Int) :
    ∀ (ts : List Int) (s : GryffinStore O) (c : Int),
      (∀ t ∈ ts, InWindow n t) →
      (s.Hits (k ++ "/" ++ FormatInt (5 * n) 10)).getD 0 = c → 0 ≤ c →
      (hitAll s k ts).1
        = (List.range ts.length).map (fun (i : Nat) => decide (c + (i : Int) < 5))
      ∧ (∀ K, K ≠ k ++ "/" ++ FormatInt (5 * n) 10 → (hitAll s k ts).2.Hits K = s.Hits K) := by
  intro ts
  induction ts with
  | nil => intro s c _ _ _; exact ⟨rfl, fun _ _ => rfl⟩
  | cons t ts ih =>
    intro s c hts hc h0
    have hw := windowStart_of_inWindow n t (hts t (List.mem_cons_self t ts))
    have hspec := Hit_spec s k t c (by rw [hw]; exact hc) h0
    rw [hw] at hspec
    obtain ⟨hr, hcnt, hother⟩ := hspec
    have hrec := ih (Hit s k t).2 (if c < 5 then c + 1 else c)
      (fun t' ht' => hts t' (List.mem_cons_of_mem t ht')) hcnt (by split <;> omega)
    obtain ⟨hres, hfr⟩ := hrec
    constructor
    · simp only [hitAll, List.length_cons, List.range_succ_eq_map, List.map_cons, List.map_map]
      rw [hr, hres]
      refine congrArg₂ _ (by simp) ?_
      apply List.map_congr_left
      intro i _
      simp only [Function.comp, Nat.succ_eq_add_one, Nat.cast_add, Nat.cast_one, decide_eq_decide]
      split <;> omega
    · intro K hK
      simp only [hitAll]
      rw [hfr K hK, hother K hK]

theorem digitVal_of_hexDigit (x d : Nat) (h : hexDigit x = some d) :
    digitVal x = some d ∧ d < 16 := by
  unfold hexDigit at h
  split at h
  next h1 =>
    simp only [Option.some.injEq] at h
    subst h
    exact ⟨by simp [digitVal, h1], by omega⟩
  next h1 =>
    split at h
    next h2 =>
      simp only [Option.some.injEq] at h
      subst h
      obtain ⟨ha, hb⟩ := h2
      interval_cases x <;> exact ⟨by decide, by decide⟩
    next h2 =>
      split at h
      next h3 =>
        simp only [Option.some.injEq] at h
        subst h
        obtain ⟨ha, hb⟩ := h3
        interval_cases x <;> exact ⟨by decide, by decide⟩
      next h3 => exact absurd h (by simp)

/-- A string that denotes `v` in base 16 consists of digits `ParseUint`
accepts, and `ParseUint` reads the same number from it. -/
theorem hexValueFrom_digits :
    ∀ (l : List Char) (n v : Nat), hexValueFrom n l = some v →
      (∀ c ∈ l, IsDigitBelow 16 c) ∧ digitsValueFrom 16 n l = v := by
  intro l
  induction l with
  | nil =>
    intro n v h
    simp only [hexValueFrom, Option.some.injEq] at h
    exact ⟨by simp, by simpa [digitsValueFrom] using h⟩
  | cons c cs ih =>
    intro n v h
    simp only [hexValueFrom] at h
    cases hd : hexDigit c.toNat with
    | none => rw [hd] at h; exact absurd h (by simp)
    | some d =>
      rw [hd] at h
      obtain ⟨hdv, hlt⟩ := digitVal_of_hexDigit _ _ hd
      obtain ⟨hall, hval⟩ := ih _ _ h
      refine ⟨?_, ?_⟩
      · intro c' hc'
        rcases List.mem_cons.mp hc' with rfl | hc'
        · exact ⟨d, hdv, hlt⟩
        · exact hall c' hc'
      · simpa [digitsValueFrom, hdv] using hval

theorem ParseUint_of_isHexEncoding (V : String) (v : Nat) (hv : v < 2 ^ 64)
    (hV : IsHexEncoding V v) : ParseUint V 16 64 = (v, none) := by
  obtain ⟨hne, hval⟩ := hV
  obtain ⟨hall, hdv⟩ := hexValueFrom_digits _ _ _ hval
  have h := ParseUint_of_digits V hne hall (by unfold digitsValue; rw [hdv]; exact hv)
  unfold digitsValue at h
  rw [hdv] at h
  exact h

theorem hexDigit_digitChar : ∀ d, d < 16 → hexDigit (digitChar d).toNat = some d := by
  decide

theorem digitChar_lower_hex : ∀ d, d < 16 → digitChar d ∈ "0123456789abcdef".toList := by
  decide

theorem hexValueFrom_of_digitChars :
    ∀ (l : List Char) (n : Nat), (∀ c ∈ l, ∃ d, d < 16 ∧ c = digitChar d) →
      hexValueFrom n l = some (digitsValueFrom 16 n l) := by
  intro l
  induction l with
  | nil => intro n _; rfl
  | cons c cs ih =>
    intro n h
    obtain ⟨d, hd, rfl⟩ := h c (List.mem_cons_self c cs)
    have hrec := ih (n * 16 + d) (fun c' hc' => h c' (List.mem_cons_of_mem _ hc'))
    simp only [hexValueFrom, hexDigit_digitChar d hd]
    rw [hrec]
    simp [digitsValueFrom, digitVal_digitChar d (by omega)]

/-- The `%x` rendering of `f` is a base-16 encoding of `f` in lowercase digits. -/
theorem Sprintfx_isHexEncoding (f : Nat) :
    IsHexEncoding (Sprintfx f) f ∧ ∀ c ∈ (Sprintfx f).data, c ∈ "0123456789abcdef".toList := by
  have hd := formatBitsLoop_digits 16 (by omega) f f (le_refl f)
  refine ⟨⟨formatBitsLoop_ne_nil 16 f f [], ?_⟩, ?_⟩
  · have h := hexValueFrom_of_digitChars (formatBits f 16) 0 hd
    have hv := digitsValue_formatBits 16 (by omega) (by omega) f
    unfold digitsValue at hv
    rw [hv] at h
    exact h
  · intro c hc
    obtain ⟨d, hlt, rfl⟩ := hd c hc
    exact digitChar_lower_hex d hlt

@[simp] theorem See_snd {O : Type} (D : OracleOps O) (s : GryffinStore O) (k kind : String)
    (f : Nat) : (See D s k kind f).snd = s.snd := by
  unfold See
  split
  · simp
  · split
    · simp
    · rfl

/-- On a store with outbound channel, `See` of a known kind starts one send. -/
theorem See_sending_shared {O : Type} (D : OracleOps O) (s : GryffinStore O)
    (k kind : String) (f : Nat) (hq : s.snd.isSome = true)
    (hk : kind = "oracle" ∨ kind = "hash") :
    (See D s k kind f).sending
      = s.sending ++ [Marshal { F := "See", T := kind, K := k, V := Sprintfx f }] := by
  rcases hk with rfl | rfl
  · rw [See_oracle]
    unfold oracleSee
    rw [remoteUpdate_sending]
    cases h : s.Oracles k <;> simp [h, hq]
  · rw [See_hash]
    unfold hashesSee
    rw [remoteUpdate_sending]
    simp [hq]

/-- On a store without outbound channel, `See` starts no send. -/
theorem See_sending_standalone {O : Type} (D : OracleOps O) (s : GryffinStore O)
    (k kind : String) (f : Nat) (hq : s.snd = none) :
    (See D s k kind f).sending = s.sending := by
  unfold See
  split
  · unfold oracleSee
    rw [remoteUpdate_sending]
    cases h : s.Oracles k <;> simp [h, hq]
  · split
    · unfold hashesSee
      rw [remoteUpdate_sending]
      simp [hq]
    · rfl

@[simp] theorem See_Hits {O : Type} (D : OracleOps O) (s : GryffinStore O) (k kind : String)
    (v : Nat) : (See D s k kind v).Hits = s.Hits := by
  unfold See
  split
  · simp
  · split
    · simp
    · rfl

@[simp] theorem processRcvMsgBody_Hits {O : Type} (D : OracleOps O) (s : GryffinStore O)
    (p : Payload) : (processRcvMsgBody D s p).Hits = s.Hits := by
  cases p with
  | malformed raw => simp
  | json m =>
    rw [processRcvMsgBody_json]
    split
    · split
      · simp
      · split
        · simp
        · rfl
    · rfl

/-- An operation other than `Hit(k)` in the window `m` leaves the counter of
`k` and that window as it was. -/
theorem step_Hits_of_not_hit {O : Type} (D : OracleOps O) (s : GryffinStore O) (op : Op)
    (k : String) (m : Int) (h : hitsWindow k m op = false) :
    (step D s op).Hits (k ++ "/" ++ FormatInt (5 * m) 10)
      = s.Hits (k ++ "/" ++ FormatInt (5 * m) 10) := by
  cases op with
  | Send i => simp [step]
  | RecvSnd => simp [step]
  | See pfx kind v => simp [step]
  | Seen pfx kind v r => simp [step]
  | Rcv p => simp [step]
  | Hit pfx now =>
    have hne : k ++ "/" ++ FormatInt (5 * m) 10 ≠ pfx ++ "/" ++ FormatInt (windowStart now) 10 := by
      intro hk
      obtain ⟨h1, h2⟩ := hitsKey_injective _ _ _ _ hk
      simp [hitsWindow, h1, h2] at h
    simp only [step]
    unfold Hit
    simp only
    split
    · split
      · rfl
      · exact mapSet_other _ _ _ _ hne
    · exact mapSet_other _ _ _ _ hne

/-- In a store reached from a fresh one without any call `Hit(k)` in the window
`m`, the counter of `k` and that window does not exist. -/
theorem fresh_run_counter_absent {O : Type} (D : OracleOps O) (shared : Bool) (k : String)
    (m : Int) (ops : List Op) (h : ∀ op ∈ ops, hitsWindow k m op = false) :
    (run D (newGryffinStore shared) ops).Hits (k ++ "/" ++ FormatInt (5 * m) 10) = none := by
  have gen : ∀ (ops : List Op) (s : GryffinStore O), (∀ op ∈ ops, hitsWindow k m op = false) →
      (run D s ops).Hits (k ++ "/" ++ FormatInt (5 * m) 10)
        = s.Hits (k ++ "/" ++ FormatInt (5 * m) 10) := by
    intro ops
    induction ops with
    | nil => intro s _; rfl
    | cons op ops ih =>
      intro s h
      have h1 := ih (step D s op) (fun o ho => h o (List.mem_cons_of_mem op ho))
      have h2 := step_Hits_of_not_hit D s op k m (h op (List.mem_cons_self op ops))
      simp only [run, List.foldl_cons] at h1 ⊢
      rw [h1, h2]
  rw [gen ops _ h]
  rfl

/-- The answer of `Seen` depends on the Oracle map and the hash set only. -/
theorem Seen_congr {O : Type} (D : OracleOps O) (s t : GryffinStore O) (k kind : String)
    (v r : Nat) (ho : s.Oracles = t.Oracles) (hh : s.Hashes = t.Hashes) :
    (Seen D s k kind v r).1 = (Seen D t k kind v r).1 := by
  unfold Seen
  rw [ho, hh]
  split
  · split <;> rfl
  · split <;> rfl

theorem mapSet_isSome_mono {α : Type} (m : String → Option α) (k K : String) (v : α)
    (h : (m K).isSome = true) : (mapSet m k v K).isSome = true := by
  unfold mapSet
  split
  · rfl
  · exact h

/-- The local state after `n + 1` calls `See(k, "hash", f)`. -/
theorem iterate_See_hash {O : Type} (D : OracleOps O) (s : GryffinStore O) (k : String)
    (f : Nat) :
    ∀ n : Nat,
      ((fun t => See D t k "hash" f)^[n + 1] s).Hashes
          = mapSet s.Hashes (k ++ "/" ++ FormatUint f 10) true
        ∧ ((fun t => See D t k "hash" f)^[n + 1] s).Oracles = s.Oracles
        ∧ ((fun t => See D t k "hash" f)^[n + 1] s).Hits = s.Hits := by
  intro n
  induction n with
  | zero =>
    simp only [Function.iterate_succ, Function.iterate_zero, Function.comp, id]
    rw [See_hash]
    exact ⟨hashesSee_Hashes _ _ _ _, hashesSee_Oracles _ _ _ _, hashesSee_Hits _ _ _ _⟩
  | succ n ih =>
    rw [Function.iterate_succ_apply']
    obtain ⟨h1, h2, h3⟩ := ih
    rw [See_hash]
    refine ⟨?_, ?_, ?_⟩
    · rw [hashesSee_Hashes, h1, mapSet_mapSet]
    · rw [hashesSee_Oracles, h2]
    · rw [hashesSee_Hits, h3]

/-- No operation removes an entry of the hash set. -/
theorem step_Hashes_mono {O : Type} (D : OracleOps O) (s : GryffinStore O) (op : Op)
    (K : String) (h : (s.Hashes K).isSome = true) : ((step D s op).Hashes K).isSome = true := by
  cases op with
  | Send i => simpa [step] using h
  | RecvSnd => simpa [step] using h
  | See pfx kind v =>
    simp only [step, See]
    split
    · simpa using h
    · split
      · rw [hashesSee_Hashes]
        exact mapSet_isSome_mono _ _ _ _ h
      · exact h
  | Seen pfx kind v r => simpa [step] using h
  | Hit pfx now => simpa [step] using h
  | Rcv p =>
    cases p with
    | malformed raw => simpa [step] using h
    | json m =>
      simp only [step, processRcvMsgBody_json]
      split
      · split
        · rw [hashesSee_Hashes]
          exact mapSet_isSome_mono _ _ _ _ h
        · split
          · simpa using h
          · exact h
      · exact h

/-- The answer of `Hit` in terms of the counter of its bucket. -/
theorem Hit_fst {O : Type} (s : GryffinStore O) (k : String) (now : Int) :
    (Hit s k now).1
      = (match s.Hits (k ++ "/" ++ FormatInt (windowStart now) 10) with
        | some v => decide (v < 5)
        | none => true) := by
  unfold Hit
  simp only
  cases s.Hits (k ++ "/" ++ FormatInt (windowStart now) 10) with
  | none => rfl
  | some v =>
    by_cases h5 : v ≥ 5
    · have : ¬ v < 5 := by omega
      simp [h5, this]
    · have : v < 5 := by omega
      simp [h5, this]

/-- The hits map after `Hit`. -/
theorem Hit_Hits {O : Type} (s : GryffinStore O) (k : String) (now : Int) (K : String) :
    (Hit s k now).2.Hits K
      = if K = k ++ "/" ++ FormatInt (windowStart now) 10 then
          (match s.Hits (k ++ "/" ++ FormatInt (windowStart now) 10) with
          | some v => if v ≥ 5 then some v else some (v + 1)
          | none => some 1)
        else s.Hits K := by
  unfold Hit
  simp only
  cases hv : s.Hits (k ++ "/" ++ FormatInt (windowStart now) 10) with
  | none =>
    by_cases hK : K = k ++ "/" ++ FormatInt (windowStart now) 10
    · simp [hK, mapSet]
    · simp [hK, mapSet]
  | some v =>
    by_cases h5 : v ≥ 5
    · by_cases hK : K = k ++ "/" ++ FormatInt (windowStart now) 10
      · simp [h5, hK, hv]
      · simp [h5, hK]
    · by_cases hK : K = k ++ "/" ++ FormatInt (windowStart now) 10
      · simp [h5, hK, mapSet]
      · simp [h5, hK, mapSet]

theorem Hit_HitsInRange {O : Type} (s : GryffinStore O) (k : String) (now : Int)
    (h : HitsInRange s) : HitsInRange (Hit s k now).2 := by
  intro K v hv
  rw [Hit_Hits] at hv
  split at hv
  · cases hb : s.Hits (k ++ "/" ++ FormatInt (windowStart now) 10) with
    | none =>
      rw [hb] at hv
      simp only [Option.some.injEq] at hv
      omega
    | some w =>
      rw [hb] at hv
      have hw := h _ w hb
      simp only at hv
      split at hv
      · simp only [Option.some.injEq] at hv
        omega
      · simp only [Option.some.injEq] at hv
        omega
  · exact h K v hv

theorem step_HitsInRange {O : Type} (D : OracleOps O) (s : GryffinStore O) (op : Op)
    (h : HitsInRange s) : HitsInRange (step D s op) := by
  cases op with
  | Send i =>
    intro K w hw
    simp only [step, sendStep_Hits] at hw
    exact h K w hw
  | RecvSnd =>
    intro K w hw
    simp only [step, recvSnd_Hits] at hw
    exact h K w hw
  | See pfx kind v =>
    intro K w hw
    simp only [step, See_Hits] at hw
    exact h K w hw
  | Seen pfx kind v r =>
    intro K w hw
    simp only [step, Seen_store] at hw
    exact h K w hw
  | Hit pfx now => exact Hit_HitsInRange s pfx now h
  | Rcv p =>
    intro K w hw
    simp only [step, processRcvMsgBody_Hits] at hw
    exact h K w hw

theorem run_HitsInRange {O : Type} (D : OracleOps O) :
    ∀ (ops : List Op) (s : GryffinStore O), HitsInRange s → HitsInRange (run D s ops) := by
  intro ops
  induction ops with
  | nil => intro s h; exact h
  | cons op ops ih =>
    intro s h
    have := ih (step D s op) (step_HitsInRange D s op h)
    simpa [run] using this

theorem fresh_HitsInRange {O : Type} (shared : Bool) :
    HitsInRange (newGryffinStore shared : GryffinStore O) := by
  intro K v hv
  simp [newGryffinStore] at hv

/-- A call `Hit(k₁)` leaves every counter of another key as it was. -/
theorem Hit_Hits_other_key {O : Type} (s : GryffinStore O) (k₁ k₂ : String) (t : Int) (i : Int)
    (h : k₁ ≠ k₂) :
    (Hit s k₁ t).2.Hits (k₂ ++ "/" ++ FormatInt i 10) = s.Hits (k₂ ++ "/" ++ FormatInt i 10) := by
  rw [Hit_Hits, if_neg]
  intro hk
  exact h (hitsKey_injective _ _ _ _ hk).1.symm

/-- A call `Hit(k)` leaves the counters of the other windows of `k` as they
were. -/
theorem Hit_Hits_other_window {O : Type} (s : GryffinStore O) (k : String) (t : Int) (i : Int)
    (h : i ≠ windowStart t) :
    (Hit s k t).2.Hits (k ++ "/" ++ FormatInt i 10) = s.Hits (k ++ "/" ++ FormatInt i 10) := by
  rw [Hit_Hits, if_neg]
  intro hk
  exact h (hitsKey_injective _ _ _ _ hk).2

/-- The answers to the calls of one key within any sequence of calls are those
of the same calls made alone, from any store with the same counters for that
key. -/
theorem hitCalls_filter {O : Type} (k : String) :
    ∀ (calls : List (String × Int)) (s s' : GryffinStore O),
      (∀ i : Int, s.Hits (k ++ "/" ++ FormatInt i 10) = s'.Hits (k ++ "/" ++ FormatInt i 10)) →
      ((hitCalls s calls).1.filter (fun x => decide (x.1 = k))).map Prod.snd
        = (hitAll s' k ((calls.filter (fun c => decide (c.1 = k))).map Prod.snd)).1 := by
  intro calls
  induction calls with
  | nil => intro s s' _; rfl
  | cons c cs ih =>
    intro s s' hag
    obtain ⟨kc, t⟩ := c
    by_cases hk : kc = k
    · subst hk
      have hres : (Hit s kc t).1 = (Hit s' kc t).1 := by
        rw [Hit_fst, Hit_fst, hag]
      have hag' : ∀ i : Int, (Hit s kc t).2.Hits (kc ++ "/" ++ FormatInt i 10)
          = (Hit s' kc t).2.Hits (kc ++ "/" ++ FormatInt i 10) := by
        intro i
        rw [Hit_Hits, Hit_Hits, hag, hag]
      have hrec := ih (Hit s kc t).2 (Hit s' kc t).2 hag'
      simp only [hitCalls, hitAll, List.filter_cons, decide_True, if_true, List.map_cons]
      rw [hrec, hres]
    · have hag' : ∀ i : Int, (Hit s kc t).2.Hits (k ++ "/" ++ FormatInt i 10)
          = s'.Hits (k ++ "/" ++ FormatInt i 10) := by
        intro i
        rw [Hit_Hits_other_key s kc k t i hk, hag]
      have hrec := ih (Hit s kc t).2 s' hag'
      simp only [hitCalls, List.filter_cons, hk, decide_False]
      simpa using hrec

/-- An instant of the span `[a, a + 5 s)` lies in the window of `a` or in the
next one. -/
theorem windowStart_in_span (a t : Int) (h1 : a ≤ t) (h2 : t < a + 5 * second) :
    windowStart t = windowStart a ∨ windowStart t = windowStart a + 5 := by
  unfold second at h2
  unfold windowStart second
  omega

/-- The count of a counter never decreases under `Hit`. -/
theorem Hit_counter_mono {O : Type} (s : GryffinStore O) (k : String) (t : Int) (K : String) :
    (s.Hits K).getD 0 ≤ ((Hit s k t).2.Hits K).getD 0 := by
  rw [Hit_Hits]
  split
  next hK =>
    subst hK
    cases hv : s.Hits (k ++ "/" ++ FormatInt (windowStart t) 10) with
    | none => simp
    | some v =>
      simp only [Option.getD_some]
      split <;> simp
  next hK => exact le_refl _

/-- A permitted `Hit` raises the counter of its bucket by one. -/
theorem Hit_counter_true {O : Type} (s : GryffinStore O) (k : String) (t : Int)
    (h : (Hit s k t).1 = true) :
    ((Hit s k t).2.Hits (k ++ "/" ++ FormatInt (windowStart t) 10)).getD 0
      = (s.Hits (k ++ "/" ++ FormatInt (windowStart t) 10)).getD 0 + 1 := by
  rw [Hit_fst] at h
  rw [Hit_Hits, if_pos rfl]
  cases hv : s.Hits (k ++ "/" ++ FormatInt (windowStart t) 10) with
  | none => simp
  | some v =>
    rw [hv] at h
    simp only [decide_eq_true_eq] at h
    have h5 : ¬ v ≥ 5 := by omega
    simp [h5]

theorem HitsInRange_counter {O : Type} (s : GryffinStore O) (h : HitsInRange s) (K : String) :
    0 ≤ (s.Hits K).getD 0 ∧ (s.Hits K).getD 0 ≤ 5 := by
  cases hv : s.Hits K with
  | none => simp
  | some v =>
    have := h K v hv
    simp only [Option.getD_some]
    omega

/-- The permits granted within a span of less than 5 s, plus what the two
windows it can touch have already granted, never exceed 10. -/
theorem permitsInSpan_bound {O : Type} (k : String) (a : Int) :
    ∀ (ts : List Int) (s : GryffinStore O), HitsInRange s →
      (permitsInSpan a (hitAll s k ts).1 ts : Int)
        + (s.Hits (k ++ "/" ++ FormatInt (windowStart a) 10)).getD 0
        + (s.Hits (k ++ "/" ++ FormatInt (windowStart a + 5) 10)).getD 0 ≤ 10 := by
  intro ts
  induction ts with
  | nil =>
    intro s h
    have h0 := HitsInRange_counter s h (k ++ "/" ++ FormatInt (windowStart a) 10)
    have h1 := HitsInRange_counter s h (k ++ "/" ++ FormatInt (windowStart a + 5) 10)
    simp only [permitsInSpan, hitAll, List.zip_nil_left, List.countP_nil, Nat.cast_zero]
    omega
  | cons t ts ih =>
    intro s h
    have hrec := ih (Hit s k t).2 (Hit_HitsInRange s k t h)
    have m0 := Hit_counter_mono s k t (k ++ "/" ++ FormatInt (windowStart a) 10)
    have m1 := Hit_counter_mono s k t (k ++ "/" ++ FormatInt (windowStart a + 5) 10)
    have hcons : permitsInSpan a (hitAll s k (t :: ts)).1 (t :: ts)
        = permitsInSpan a (hitAll (Hit s k t).2 k ts).1 ts
          + (if ((Hit s k t).1 && decide (a ≤ t ∧ t < a + 5 * second)) = true then 1 else 0) := by
      simp only [permitsInSpan, hitAll, List.zip_cons_cons, List.countP_cons]
    rw [hcons]
    split
    next hc =>
      simp only [Bool.and_eq_true, decide_eq_true_eq] at hc
      obtain ⟨hb, h1, h2⟩ := hc
      have htrue := Hit_counter_true s k t hb
      rcases windowStart_in_span a t h1 h2 with hw | hw
      · rw [hw] at htrue
        push_cast
        omega
      · rw [hw] at htrue
        push_cast
        omega
    next hc =>
      push_cast
      omega

theorem hitAll_append {O : Type} (k : String) :
    ∀ (l₁ l₂ : List Int) (s : GryffinStore O),
      (hitAll s k (l₁ ++ l₂)).1 = (hitAll s k l₁).1 ++ (hitAll (hitAll s k l₁).2 k l₂).1 := by
  intro l₁
  induction l₁ with
  | nil => intro l₂ s; rfl
  | cons t ts ih =>
    intro l₂ s
    exact congrArg (List.cons (Hit s k t).1) (ih l₂ (Hit s k t).2)

/-- On a fresh store, five hits at 4.9 s and five hits at 5.0 s all return true. -/
theorem hitAll_burst {O : Type} (shared : Bool) (k : String) :
    (hitAll (newGryffinStore shared : GryffinStore O) k
        [4900000000, 4900000000, 4900000000, 4900000000, 4900000000,
          5000000000, 5000000000, 5000000000, 5000000000, 5000000000]).1
      = [true, true, true, true, true, true, true, true, true, true] := by
  have hsplit : ([4900000000, 4900000000, 4900000000, 4900000000, 4900000000,
      5000000000, 5000000000, 5000000000, 5000000000, 5000000000] : List Int)
      = [4900000000, 4900000000, 4900000000, 4900000000, 4900000000]
        ++ [5000000000, 5000000000, 5000000000, 5000000000, 5000000000] := rfl
  have hw0 : ∀ t ∈ ([4900000000, 4900000000, 4900000000, 4900000000, 4900000000] : List Int),
      InWindow 0 t := by
    intro t ht
    simp only [List.mem_cons, List.mem_singleton, List.not_mem_nil, or_false, or_self] at ht
    subst ht
    unfold InWindow second
    decide
  have hw1 : ∀ t ∈ ([5000000000, 5000000000, 5000000000, 5000000000, 5000000000] : List Int),
      InWindow 1 t := by
    intro t ht
    simp only [List.mem_cons, List.mem_singleton, List.not_mem_nil, or_false, or_self] at ht
    subst ht
    unfold InWindow second
    decide
  obtain ⟨h1, hfr⟩ := hitAll_spec k 0 _ (newGryffinStore shared : GryffinStore O) 0 hw0 rfl
    (le_refl 0)
  have hne : k ++ "/" ++ FormatInt (5 * 1) 10 ≠ k ++ "/" ++ FormatInt (5 * 0) 10 := by
    intro h
    have := (hitsKey_injective _ _ _ _ h).2
    omega
  obtain ⟨h2, _⟩ := hitAll_spec k 1 _
    (hitAll (newGryffinStore shared : GryffinStore O) k
      [4900000000, 4900000000, 4900000000, 4900000000, 4900000000]).2 0 hw1
    (by rw [hfr _ hne]; rfl) (le_refl 0)
  rw [hsplit, hitAll_append, h1, h2]
  decide

/-- A caller that runs its three sections with no other caller in between does
to the Oracle map what `oracleSee` does. -/
theorem oracleSee_sections_alone {O : Type} (D : OracleOps O) (st : PtrStore O)
    (s : GryffinStore O) (k : String) (f : Nat) (lo : Bool) (hwf : st.WellFormed)
    (habs : ∀ k', st.oracleOf k' = s.Oracles k') :
    ∀ k', (interleave D st [{ pfx := k, f := f, pc := SeePc.lookup }] [0, 0, 0]).1.oracleOf k'
      = (oracleSee D s k f lo).Oracles k' := by
  intro k'
  obtain ⟨hlt, hinj⟩ := hwf
  rw [oracleSee_Oracles]
  have hk := habs k
  cases hp : st.Oracles k with
  | none =>
    simp only [PtrStore.oracleOf, hp] at hk
    rw [← hk]
    simp only [interleave, oracleSeeStep, hp, List.getElem?_cons_zero, List.set_cons_zero,
      PtrStore.oracleOf, Option.getD_none]
    by_cases hkk : k' = k
    · subst hkk
      simp
    · rw [mapSet_other _ _ _ _ hkk, mapSet_other _ _ _ _ hkk, ← habs k']
      simp only [PtrStore.oracleOf]
      cases hp' : st.Oracles k' with
      | none => rfl
      | some p' =>
        have := hlt k' p' hp'
        simp only
        rw [List.getElem?_set_ne (by omega), List.getElem?_append_left this]
  | some p =>
    have hpl := hlt k p hp
    simp only [PtrStore.oracleOf, hp] at hk
    rw [← hk]
    simp only [interleave, oracleSeeStep, hp, List.getElem?_cons_zero, List.set_cons_zero,
      PtrStore.oracleOf]
    by_cases hkk : k' = k
    · subst hkk
      simp only [hp, mapSet_same]
      rw [List.getElem?_set_self hpl, List.getD_eq_getElem?_getD]
    · rw [mapSet_other _ _ _ _ hkk, ← habs k']
      simp only [PtrStore.oracleOf]
      cases hp' : st.Oracles k' with
      | none => rfl
      | some p' =>
        have hne : p ≠ p' := fun e => hkk (hinj k' k p' hp' (e ▸ hp))
        simp only
        rw [List.getElem?_set_ne hne]

/-! ## JSON coercion of strings -/

theorem jsonCoerceLoop_length : ∀ (l : List Char) (n : Nat),
    l.length ≤ (jsonCoerceLoop n l).length := by
  intro l
  induction l with
  | nil => intro n; simp [jsonCoerceLoop]
  | cons c cs ih =>
    intro n
    cases n with
    | succ m =>
      simp only [jsonCoerceLoop, List.length_cons]
      have := ih m
      omega
    | zero =>
      simp only [jsonCoerceLoop]
      split
      · have := ih 0
        simp only [List.length_cons]
        omega
      · rename_i m _
        have := ih m
        simp only [List.length_cons]
        omega

/-- A string is left as it is by the JSON round trip exactly when it is valid
UTF-8. -/
theorem validStringLoop_iff : ∀ (l : List Char) (n : Nat),
    validStringLoop n l = true ↔ jsonCoerceLoop n l = l := by
  intro l
  induction l with
  | nil => intro n; simp [validStringLoop, jsonCoerceLoop]
  | cons c cs ih =>
    intro n
    cases n with
    | succ m =>
      simp only [validStringLoop, jsonCoerceLoop, List.cons.injEq, true_and]
      exact ih m
    | zero =>
      simp only [validStringLoop, jsonCoerceLoop]
      split
      · constructor
        · intro h
          exact absurd h (by simp)
        · intro h
          have hlen := congrArg List.length h
          have := jsonCoerceLoop_length cs 0
          simp only [List.length_cons] at hlen
          omega
      · rename_i m _
        simp only [List.cons.injEq, true_and]
        exact ih m

theorem jsonCoerce_of_valid (s : String) (h : ValidString s = true) : jsonCoerce s = s := by
  unfold ValidString at h
  unfold jsonCoerce
  rw [(validStringLoop_iff s.data 0).mp h]

theorem jsonCoerce_ne_of_invalid (s : String) (h : ValidString s = false) : jsonCoerce s ≠ s := by
  intro he
  have h1 : jsonCoerceLoop 0 s.data = s.data := by
    have := congrArg String.data he
    simpa [jsonCoerce] using this
  have := (validStringLoop_iff s.data 0).mpr h1
  unfold ValidString at h
  rw [h] at this
  exact absurd this (by simp)

theorem validStringLoop_ascii : ∀ (l : List Char), (∀ c ∈ l, c.toNat < 128) →
    validStringLoop 0 l = true := by
  intro l
  induction l with
  | nil => intro _; rfl
  | cons c cs ih =>
    intro h
    have hc : c.toNat < 128 := h c (List.mem_cons_self c cs)
    have hs : utf8Size ((c :: cs).map Char.toNat) = 1 := by
      simp [utf8Size, hc]
    simp only [validStringLoop, hs]
    exact ih (fun c' hc' => h c' (List.mem_cons_of_mem c hc'))

/-- An ASCII string is valid UTF-8. -/
theorem ValidString_ascii (s : String) (h : ∀ c ∈ s.data, c.toNat < 128) :
    ValidString s = true :=
  validStringLoop_ascii s.data h

theorem jsonCoerce_Sprintfx (f : Nat) : jsonCoerce (Sprintfx f) = Sprintfx f := by
  apply jsonCoerce_of_valid
  apply ValidString_ascii
  intro c hc
  have hm := (Sprintfx_isHexEncoding f).2 c hc
  have hall : ∀ c ∈ "0123456789abcdef".toList, c.toNat < 128 := by decide
  exact hall c hm

/-- What `json.Unmarshal` reads from the marshalled `See` message of a known
kind: the same message with the key coerced to valid UTF-8. -/
theorem Marshal_See (k kind : String) (f : Nat) (hk : kind = "oracle" ∨ kind = "hash") :
    Marshal { F := "See", T := kind, K := k, V := Sprintfx f }
      = Payload.json { F := "See", T := kind, K := jsonCoerce k, V := Sprintfx f } := by
  have hF : jsonCoerce "See" = "See" := by decide
  have hT : jsonCoerce kind = kind := by
    rcases hk with rfl | rfl <;> decide
  simp only [Marshal, hF, hT, jsonCoerce_Sprintfx]

/-! ## The outbound channel -/

@[simp] theorem processRcvMsgBody_snd {O : Type} (D : OracleOps O) (s : GryffinStore O)
    (p : Payload) : (processRcvMsgBody D s p).snd = s.snd := by
  cases p with
  | malformed raw => simp
  | json m =>
    rw [processRcvMsgBody_json]
    split
    · split
      · simp
      · split
        · simp
        · rfl
    · rfl

@[simp] theorem processRcvMsgBody_sending {O : Type} (D : OracleOps O) (s : GryffinStore O)
    (p : Payload) : (processRcvMsgBody D s p).sending = s.sending := by
  cases p with
  | malformed raw => simp
  | json m =>
    rw [processRcvMsgBody_json]
    split
    · split
      · simp
      · split
        · simp
        · rfl
    · rfl

/-- The send of a goroutine in progress, spelled out. -/
theorem sendStep_spec {O : Type} (s : GryffinStore O) (q : List Payload) (p : Payload) (i : Nat)
    (hq : s.snd = some q) (hp : s.sending[i]? = some p) :
    (q.length < chanCap →
      (sendStep s i).snd = some (q ++ [p]) ∧ (sendStep s i).sending = s.sending.eraseIdx i)
    ∧ (chanCap ≤ q.length → sendStep s i = s) := by
  unfold sendStep
  rw [hq, hp]
  constructor
  · intro h
    simp [h]
  · intro h
    have : ¬ q.length < chanCap := by omega
    simp [this]

theorem sendStep_noChannel {O : Type} (s : GryffinStore O) (i : Nat) (hq : s.snd = none) :
    sendStep s i = s := by
  unfold sendStep
  rw [hq]

theorem recvSnd_noChannel {O : Type} (s : GryffinStore O) (hq : s.snd = none) :
    (recvSnd s).2 = s := by
  unfold recvSnd
  rw [hq]

theorem sendStep_snd_cases {O : Type} (s : GryffinStore O) (i : Nat) :
    (sendStep s i).snd = s.snd
    ∨ ∃ q p, s.snd = some q ∧ q.length < chanCap ∧ (sendStep s i).snd = some (q ++ [p]) := by
  cases hq : s.snd with
  | none => exact Or.inl (by simp [sendStep, hq])
  | some q =>
    cases hp : s.sending[i]? with
    | none => exact Or.inl (by simp [sendStep, hq, hp])
    | some p =>
      by_cases hl : q.length < chanCap
      · exact Or.inr ⟨q, p, rfl, hl, by simp [sendStep, hq, hp, hl]⟩
      · exact Or.inl (by simp [sendStep, hq, hp, hl])

theorem recvSnd_snd_cases {O : Type} (s : GryffinStore O) :
    (recvSnd s).2.snd = s.snd
    ∨ ∃ p q, s.snd = some (p :: q) ∧ (recvSnd s).2.snd = some q := by
  cases hq : s.snd with
  | none => exact Or.inl (by simp [recvSnd, hq])
  | some q =>
    cases q with
    | nil => exact Or.inl (by simp [recvSnd, hq])
    | cons p q => exact Or.inr ⟨p, q, rfl, by simp [recvSnd, hq]⟩

/-- No operation creates or closes the outbound channel, and its buffer never
holds more than `chanCap` payloads. -/
theorem step_snd {O : Type} (D : OracleOps O) (s : GryffinStore O) (op : Op)
    (hcap : ∀ q, s.snd = some q → q.length ≤ chanCap) :
    (step D s op).snd.isSome = s.snd.isSome
    ∧ (∀ q, (step D s op).snd = some q → q.length ≤ chanCap) := by
  have same : ∀ t : GryffinStore O, t.snd = s.snd →
      t.snd.isSome = s.snd.isSome ∧ (∀ q, t.snd = some q → q.length ≤ chanCap) := by
    intro t e
    rw [e]
    exact ⟨rfl, hcap⟩
  cases op with
  | See pfx kind v => exact same _ (by simp [step])
  | Seen pfx kind v r => exact same _ (by simp [step])
  | Hit pfx now => exact same _ (by simp [step])
  | Rcv p => exact same _ (by simp [step])
  | Send i =>
    rcases sendStep_snd_cases s i with e | ⟨q, p, hq, hl, e⟩
    · exact same _ e
    · simp only [step]
      rw [e, hq]
      refine ⟨rfl, ?_⟩
      intro q' hq'
      simp only [Option.some.injEq] at hq'
      subst hq'
      simp only [List.length_append, List.length_singleton]
      omega
  | RecvSnd =>
    rcases recvSnd_snd_cases s with e | ⟨p, q, hq, e⟩
    · exact same _ e
    · simp only [step]
      rw [e, hq]
      refine ⟨rfl, ?_⟩
      intro q' hq'
      simp only [Option.some.injEq] at hq'
      subst hq'
      have := hcap _ hq
      simp only [List.length_cons] at this
      omega

theorem run_snd {O : Type} (D : OracleOps O) :
    ∀ (ops : List Op) (s : GryffinStore O), (∀ q, s.snd = some q → q.length ≤ chanCap) →
      (run D s ops).snd.isSome = s.snd.isSome
      ∧ (∀ q, (run D s ops).snd = some q → q.length ≤ chanCap) := by
  intro ops
  induction ops with
  | nil => intro s h; exact ⟨rfl, h⟩
  | cons op ops ih =>
    intro s h
    obtain ⟨h1, h2⟩ := step_snd D s op h
    obtain ⟨h3, h4⟩ := ih (step D s op) h2
    simp only [run, List.foldl_cons] at h3 h4 ⊢
    exact ⟨h3.trans h1, h4⟩

/-- A store constructed in shared mode keeps its outbound channel, with at most
`chanCap` payloads buffered. -/
theorem run_shared_snd {O : Type} (D : OracleOps O) (ops : List Op) :
    (run D (newGryffinStore true) ops).snd.isSome = true
    ∧ (∀ q, (run D (newGryffinStore true) ops).snd = some q → q.length ≤ chanCap) := by
  have h0 : ∀ q, (newGryffinStore true : GryffinStore O).snd = some q → q.length ≤ chanCap := by
    intro q hq
    simp only [newGryffinStore, if_true, Option.some.injEq] at hq
    subst hq
    simp
  obtain ⟨h1, h2⟩ := run_snd D ops (newGryffinStore true) h0
  exact ⟨h1.trans rfl, h2⟩

/-- On a store without outbound channel no operation starts a send. -/
theorem step_standalone {O : Type} (D : OracleOps O) (s : GryffinStore O) (op : Op)
    (hq : s.snd = none) (hs : s.sending = []) :
    (step D s op).snd = none ∧ (step D s op).sending = [] := by
  cases op with
  | See pfx kind v =>
    simp only [step, See_snd, See_sending_standalone D s pfx kind v hq]
    exact ⟨hq, hs⟩
  | Seen pfx kind v r =>
    simp only [step, Seen_store]
    exact ⟨hq, hs⟩
  | Hit pfx now =>
    simp only [step, Hit_snd, Hit_sending]
    exact ⟨hq, hs⟩
  | Rcv p =>
    simp only [step, processRcvMsgBody_snd, processRcvMsgBody_sending]
    exact ⟨hq, hs⟩
  | Send i =>
    simp only [step, sendStep_noChannel s i hq]
    exact ⟨hq, hs⟩
  | RecvSnd =>
    simp only [step, recvSnd_noChannel s hq]
    exact ⟨hq, hs⟩

/-- A store constructed in standalone mode never has an outbound channel nor a
send in progress. -/
theorem run_standalone {O : Type} (D : OracleOps O) (ops : List Op) :
    (run D (newGryffinStore false) ops).snd = none
    ∧ (run D (newGryffinStore false) ops).sending = [] := by
  have gen : ∀ (ops : List Op) (s : GryffinStore O), s.snd = none → s.sending = [] →
      (run D s ops).snd = none ∧ (run D s ops).sending = [] := by
    intro ops
    induction ops with
    | nil => intro s h1 h2; exact ⟨h1, h2⟩
    | cons op ops ih =>
      intro s h1 h2
      obtain ⟨h3, h4⟩ := step_standalone D s op h1 h2
      have := ih (step D s op) h3 h4
      simpa [run] using this
  exact gen ops _ rfl rfl

/-! ## The claims -/

/-- C1: in every store, after `See(k, "hash", f)` the call
`Seen(k, "hash", f, r)` returns true, for every key, fingerprint and
tolerance. -/
theorem see_hash_then_seen {O : Type} (D : OracleOps O) (s : GryffinStore O) (k : String)
    (f r : Nat) : (Seen D (See D s k "hash" f) k "hash" f r).1 = true := by
  rw [See_hash, Seen_hash, hashesSee_Hashes, mapSet_same]
  rfl

/-- C2: in a store reached from a fresh one (shared or standalone) by any
sequence of operations none of which records `(k, f)` in the hash set,
`Seen(k, "hash", f, r)` returns false; recording one pair leaves the answer
for every other pair as it was; and the set key `k + "/" + decimal(f)`
determines the pair `(k, f)`, whatever characters the keys contain. -/
theorem unrecorded_hash_not_seen :
    (∀ {O : Type} (D : OracleOps O) (shared : Bool) (ops : List Op) (k : String) (f r : Nat),
      (∀ op ∈ ops, recordsHash k f op = false) →
      (Seen D (run D (newGryffinStore shared) ops) k "hash" f r).1 = false)
    ∧ (∀ {O : Type} (D : OracleOps O) (s : GryffinStore O) (k₁ k₂ : String) (f₁ f₂ r : Nat),
      ¬ (k₁ = k₂ ∧ f₁ = f₂) →
      (Seen D (See D s k₁ "hash" f₁) k₂ "hash" f₂ r).1 = (Seen D s k₂ "hash" f₂ r).1)
    ∧ (∀ (k₁ k₂ : String) (f₁ f₂ : Nat),
      k₁ ++ "/" ++ FormatUint f₁ 10 = k₂ ++ "/" ++ FormatUint f₂ 10 → k₁ = k₂ ∧ f₁ = f₂) := by
  refine ⟨?_, ?_, hashKey_injective⟩
  · intro O D shared ops k f r h
    rw [Seen_hash, run_Hashes_of_not_records D k f ops _ h]
    rfl
  · intro O D s k₁ k₂ f₁ f₂ r hne
    rw [See_hash, Seen_hash, Seen_hash, hashesSee_Hashes, mapSet_other]
    intro hk
    obtain ⟨h1, h2⟩ := hashKey_injective _ _ _ _ hk
    exact hne ⟨h1.symm, h2.symm⟩

/-- C2, at a concrete history: keys containing `/` and digits are recorded,
and a pair that was not recorded is not seen. -/
theorem unrecorded_hash_not_seen_witness :
    (∀ op ∈ [Op.See "a/1" "hash" 2, Op.See "a" "hash" 12, Op.Hit "a" 7000000000,
        Op.Rcv (Payload.json ⟨"See", "hash", "a/1/2", "c"⟩), Op.See "a" "oracle" 1],
      recordsHash "a" 1 op = false)
    ∧ (Seen listOracle (run listOracle (newGryffinStore true)
        [Op.See "a/1" "hash" 2, Op.See "a" "hash" 12, Op.Hit "a" 7000000000,
          Op.Rcv (Payload.json ⟨"See", "hash", "a/1/2", "c"⟩), Op.See "a" "oracle" 1])
        "a" "hash" 1 0).1 = false :=
  ⟨by decide, unrecorded_hash_not_seen.1 listOracle true _ "a" 1 0 (by decide)⟩

/-- C3: for every Oracle implementation and key `k`: (1) after any sequence of
operations on a fresh store the Oracle entry of `k` is absent when no
oracle-kind `See` or inbound replay for `k` occurred, and otherwise is a new
Oracle on which `See` was called with exactly the fingerprints of those
operations, in order, and with nothing else; (2) from any store in which `k`
has the Oracle `o`, every further sequence of operations leaves `k` with
that same Oracle, advanced by exactly the fingerprints recorded for `k` (it
is never deleted or started afresh); (3) after at least one such `See`,
`Seen(k, "oracle", f, tol)` is the answer of that Oracle's own `Seen`. -/
theorem oracle_history {O : Type} (D : OracleOps O) (k : String) :
    (∀ (shared : Bool) (ops : List Op),
      (run D (newGryffinStore shared) ops).Oracles k
        = if ops.filterMap (oracleRecords k) = [] then none
          else some ((ops.filterMap (oracleRecords k)).foldl D.See D.NewOracle))
    ∧ (∀ (s : GryffinStore O) (o : O) (ops : List Op), s.Oracles k = some o →
      (run D s ops).Oracles k = some ((ops.filterMap (oracleRecords k)).foldl D.See o))
    ∧ (∀ (shared : Bool) (ops : List Op) (f tol : Nat),
      ops.filterMap (oracleRecords k) ≠ [] →
      (Seen D (run D (newGryffinStore shared) ops) k "oracle" f tol).1
        = D.Seen ((ops.filterMap (oracleRecords k)).foldl D.See D.NewOracle) f tol) := by
  have fresh : ∀ (shared : Bool) (ops : List Op),
      (run D (newGryffinStore shared) ops).Oracles k
        = if ops.filterMap (oracleRecords k) = [] then none
          else some ((ops.filterMap (oracleRecords k)).foldl D.See D.NewOracle) := by
    intro shared ops
    rw [run_Oracles, ← oracleAfter_none]
    rfl
  refine ⟨fresh, ?_, ?_⟩
  · intro s o ops h
    rw [run_Oracles, h, oracleAfter_some]
  · intro shared ops f tol hne
    have h := fresh shared ops
    rw [if_neg hne] at h
    simp [Seen, h]

/-- C3, at a concrete history with the list-keeping Oracle: the Oracle of `"a"`
has recorded 1 and then 255 (the latter from an inbound replay), not the
fingerprint of `"b"`, and `Seen` answers as that Oracle does. -/
theorem oracle_history_witness :
    [Op.See "a" "oracle" 1, Op.See "b" "oracle" 2,
        Op.Rcv (Payload.json ⟨"See", "oracle", "a", "ff"⟩), Op.See "a" "hash" 9].filterMap
        (oracleRecords "a") ≠ []
    ∧ (Seen listOracle (run listOracle (newGryffinStore true)
        [Op.See "a" "oracle" 1, Op.See "b" "oracle" 2,
          Op.Rcv (Payload.json ⟨"See", "oracle", "a", "ff"⟩), Op.See "a" "hash" 9])
        "a" "oracle" 255 0).1
      = listOracle.Seen (([Op.See "a" "oracle" 1, Op.See "b" "oracle" 2,
          Op.Rcv (Payload.json ⟨"See", "oracle", "a", "ff"⟩), Op.See "a" "hash" 9].filterMap
          (oracleRecords "a")).foldl listOracle.See listOracle.NewOracle) 255 0 :=
  ⟨by decide, (oracle_history listOracle "a").2.2 true _ 255 0 (by decide)⟩

/-- C4: in every store that has no Oracle for `k`, `Seen(k, "oracle", f, tol)`
returns false and leaves the store as it was (no Oracle is created).  Such
are in particular the stores reached from a fresh one by operations among
which none is an oracle-kind `See` or replay for `k`. -/
theorem seen_oracle_absent {O : Type} (D : OracleOps O) (k : String) (f tol : Nat) :
    (∀ (s : GryffinStore O), s.Oracles k = none →
      Seen D s k "oracle" f tol = (false, s)
      ∧ (Seen D s k "oracle" f tol).2.Oracles k = none)
    ∧ (∀ (shared : Bool) (ops : List Op), ops.filterMap (oracleRecords k) = [] →
      (run D (newGryffinStore shared) ops).Oracles k = none) := by
  constructor
  · intro s h
    have h1 : Seen D s k "oracle" f tol = (false, s) := by simp [Seen, h]
    exact ⟨h1, by rw [h1]; exact h⟩
  · intro shared ops h
    rw [run_Oracles, h]
    rfl

/-- C4, at a store where only another key and a hash for `"a"` were recorded. -/
theorem seen_oracle_absent_witness :
    (run listOracle (newGryffinStore false)
        [Op.See "b" "oracle" 3, Op.See "a" "hash" 3]).Oracles "a" = none
    ∧ Seen listOracle (run listOracle (newGryffinStore false)
        [Op.See "b" "oracle" 3, Op.See "a" "hash" 3]) "a" "oracle" 3 0
      = (false, run listOracle (newGryffinStore false)
        [Op.See "b" "oracle" 3, Op.See "a" "hash" 3]) :=
  ⟨by decide,
    ((seen_oracle_absent listOracle "a" 3 0).1 _ (by decide)).1⟩

/-- C6: for every store (shared or standalone) and every inbound payload, the
body of the receive loop leaves the outbound channel exactly as it was and
starts no send to it, and so does the loop over any sequence of payloads. -/
theorem replay_publishes_nothing {O : Type} (D : OracleOps O) (s : GryffinStore O) :
    (∀ (jsonPayload : Payload),
      (processRcvMsgBody D s jsonPayload).snd = s.snd
        ∧ (processRcvMsgBody D s jsonPayload).sending = s.sending)
    ∧ (∀ (rcv : List Payload),
      (processRcvMsg D s rcv).snd = s.snd ∧ (processRcvMsg D s rcv).sending = s.sending) := by
  refine ⟨fun p => ⟨processRcvMsgBody_snd D s p, processRcvMsgBody_sending D s p⟩, ?_⟩
  intro rcv
  induction rcv generalizing s with
  | nil => exact ⟨rfl, rfl⟩
  | cons p ps ih =>
    have := ih (processRcvMsgBody D s p)
    simp only [processRcvMsg, List.foldl_cons] at this ⊢
    rw [this.1, this.2, processRcvMsgBody_snd, processRcvMsgBody_sending]
    exact ⟨rfl, rfl⟩

/-- C5: with the clock as an argument, for every key `k` and window
`[5n, 5n + 5)` s: from a store with no counter for `k` and that window, of
any number of successive calls `Hit(k)` at instants inside the window the
first five return true and every later one returns false; and a following
call at an instant in the next window `[5n + 5, 5n + 10)` returns true, that
window's counter not being exhausted: such is the first call there, before
which the counter does not exist (`fresh_run_counter_absent`). -/
theorem hit_five_per_window {O : Type} (s : GryffinStore O) (k : String) (n : Int)
    (ts : List Int) (t' : Int)
    (h0 : s.Hits (k ++ "/" ++ FormatInt (5 * n) 10) = none)
    (h1 : ∀ v, s.Hits (k ++ "/" ++ FormatInt (5 * (n + 1)) 10) = some v → v < 5)
    (hts : ∀ t ∈ ts, InWindow n t) (ht' : InWindow (n + 1) t') :
    (hitAll s k ts).1 = (List.range ts.length).map (fun (i : Nat) => decide (i < 5))
    ∧ (Hit (hitAll s k ts).2 k t').1 = true := by
  obtain ⟨hres, hfr⟩ := hitAll_spec k n ts s 0 hts (by rw [h0]; rfl) (le_refl 0)
  constructor
  · rw [hres]
    apply List.map_congr_left
    intro i _
    simp only [decide_eq_decide]
    omega
  · have hw := windowStart_of_inWindow (n + 1) t' ht'
    have hne : k ++ "/" ++ FormatInt (5 * (n + 1)) 10 ≠ k ++ "/" ++ FormatInt (5 * n) 10 := by
      intro h
      have := (hitsKey_injective _ _ _ _ h).2
      omega
    have hsame := hfr _ hne
    unfold Hit
    simp only [hw, hsame]
    cases hv : s.Hits (k ++ "/" ++ FormatInt (5 * (n + 1)) 10) with
    | none => rfl
    | some v =>
      have := h1 v hv
      have h5 : ¬ v ≥ 5 := by omega
      simp [h5]

/-- C5, on a fresh store, key `"k"`, window `[10, 15)` s: seven calls inside
the window answer true five times and then false, and a call at 15.2 s
answers true. -/
theorem hit_five_per_window_witness :
    (hitAll (NewGryffinStore : GryffinStore Unit) "k"
        [10000000000, 10000000001, 11000000000, 12500000000, 13000000000, 14000000000,
          14999999999]).1
      = [true, true, true, true, true, false, false]
    ∧ (Hit (hitAll (NewGryffinStore : GryffinStore Unit) "k"
        [10000000000, 10000000001, 11000000000, 12500000000, 13000000000, 14000000000,
          14999999999]).2 "k" 15200000000).1 = true :=
  hit_five_per_window (NewGryffinStore : GryffinStore Unit) "k" 2
    [10000000000, 10000000001, 11000000000, 12500000000, 13000000000, 14000000000,
      14999999999] 15200000000 rfl (fun v h => by simp [NewGryffinStore, newGryffinStore] at h)
    (by unfold InWindow second; decide) (by unfold InWindow second; decide)

/-- C7: for every key `k`, every 64-bit value `v` and every string `V` that is
a base-16 encoding of `v`, in every store the receive loop taking the
payload of the message `{F:"See", T:"hash", K:k, V:V}` makes
`Seen(k, "hash", v, r)` return true for every `r`; no `See` call is
involved. -/
theorem inbound_hash_seen {O : Type} (D : OracleOps O) (s : GryffinStore O) (k V : String)
    (v r : Nat) (hv : v < 2 ^ 64) (hV : IsHexEncoding V v) :
    (Seen D (processRcvMsg D s [Payload.json { F := "See", T := "hash", K := k, V := V }])
      k "hash" v r).1 = true := by
  have hp := ParseUint_of_isHexEncoding V v hv hV
  simp only [processRcvMsg, List.foldl_cons, List.foldl_nil]
  rw [processRcvMsgBody_json, if_pos rfl, if_pos rfl, hp, Seen_hash, hashesSee_Hashes,
    mapSet_same]
  rfl

/-- C7, the spec's instance: `{F:"See", T:"hash", K:"x", V:"2a"}` delivered to a
fresh shared store, where `("x", 42)` was not seen before, makes it seen. -/
theorem inbound_hash_seen_witness :
    (42 < 2 ^ 64 ∧ IsHexEncoding "2a" 42)
    ∧ (Seen listOracle (NewSharedGryffinStore : GryffinStore (List Nat)) "x" "hash" 42 0).1 = false
    ∧ (Seen listOracle (processRcvMsg listOracle NewSharedGryffinStore
        [Payload.json { F := "See", T := "hash", K := "x", V := "2a" }]) "x" "hash" 42 0).1
      = true :=
  ⟨⟨by decide, ⟨by decide, by decide⟩⟩, by decide,
    inbound_hash_seen listOracle NewSharedGryffinStore "x" "2a" 42 0 (by decide)
      ⟨by decide, by decide⟩⟩

/-- C8, as stated, fails in three ways.  On a fresh shared store
`See("x", "bogus", 1)` starts no send and leaves the channel empty.  For the
key `"\xff"`, which is not valid UTF-8, the key of the message sent is not
that key but the encoding `EF BF BD` of U+FFFD.  And after eleven calls of
`See` whose sends were all scheduled, ten messages are in the channel and the
eleventh is not: its goroutine is blocked, and scheduling it again changes
nothing. -/
theorem see_not_one_message_on_channel :
    ((See listOracle (NewSharedGryffinStore : GryffinStore (List Nat)) "x" "bogus" 1).sending = []
      ∧ (See listOracle (NewSharedGryffinStore : GryffinStore (List Nat)) "x" "bogus" 1).snd
        = some [])
    ∧ (See listOracle (NewSharedGryffinStore : GryffinStore (List Nat)) "\xff" "hash" 1).sending
        = [Payload.json { F := "See", T := "hash", K := "\xef\xbf\xbd", V := "1" }]
    ∧ ((run listOracle (newGryffinStore true)
          ((List.range 11).map (fun i => Op.See "x" "hash" i)
            ++ List.replicate 11 (Op.Send 0))).snd.map List.length = some 10
      ∧ (run listOracle (newGryffinStore true)
          ((List.range 11).map (fun i => Op.See "x" "hash" i)
            ++ List.replicate 11 (Op.Send 0))).sending
        = [Payload.json { F := "See", T := "hash", K := "x", V := "a" }]
      ∧ sendStep (run listOracle (newGryffinStore true)
          ((List.range 11).map (fun i => Op.See "x" "hash" i)
            ++ List.replicate 11 (Op.Send 0))) 0
        = run listOracle (newGryffinStore true)
          ((List.range 11).map (fun i => Op.See "x" "hash" i)
            ++ List.replicate 11 (Op.Send 0))) := by
  refine ⟨by decide, by decide, by decide, by decide, ?_⟩
  obtain ⟨q, hq⟩ : ∃ q, (run listOracle (newGryffinStore true)
      ((List.range 11).map (fun i => Op.See "x" "hash" i)
        ++ List.replicate 11 (Op.Send 0))).snd = some q ∧ q.length = 10 := by
    have h : (run listOracle (newGryffinStore true)
        ((List.range 11).map (fun i => Op.See "x" "hash" i)
          ++ List.replicate 11 (Op.Send 0))).snd.map List.length = some 10 := by decide
    cases hs : (run listOracle (newGryffinStore true)
        ((List.range 11).map (fun i => Op.See "x" "hash" i)
          ++ List.replicate 11 (Op.Send 0))).snd with
    | none => rw [hs] at h; exact absurd h (by simp)
    | some q =>
      rw [hs] at h
      exact ⟨q, rfl, by simpa using h⟩
  have hp : (run listOracle (newGryffinStore true)
      ((List.range 11).map (fun i => Op.See "x" "hash" i)
        ++ List.replicate 11 (Op.Send 0))).sending[0]?
      = some (Payload.json { F := "See", T := "hash", K := "x", V := "a" }) := by decide
  exact (sendStep_spec _ q _ 0 hq.1 hp).2 (by rw [hq.2]; decide)

/-- C8, amended.  In every store reached from one constructed in shared mode,
a call `See(k, kind, f)` with `kind` equal to `"oracle"` or `"hash"` starts
exactly one detached send, after those already in progress, and leaves the
channel itself as it is; the payload decodes to the message with `F = "See"`,
`T = kind`, `V` the `%x` rendering of `f` (a base-16 encoding of `f` in the
characters `0-9a-f` only) and `K` the key with every byte outside a
well-formed UTF-8 encoding replaced by U+FFFD, which is `k` itself when `k`
is valid UTF-8 and differs from `k` otherwise.  Such a store has its channel,
holding at most 10 payloads; a send in progress, once scheduled, appends its
payload to the channel when fewer than 10 are buffered and ends, and
otherwise stays blocked with nothing changed.  In every store reached from
one constructed in standalone mode there is no channel and no send in
progress, and `See` of any kind leaves it so. -/
theorem see_publishes_once {O : Type} (D : OracleOps O) (ops : List Op) (k kind : String)
    (f : Nat) :
    ((kind = "oracle" ∨ kind = "hash") →
      (See D (run D (newGryffinStore true) ops) k kind f).sending
          = (run D (newGryffinStore true) ops).sending
            ++ [Payload.json { F := "See", T := kind, K := jsonCoerce k, V := Sprintfx f }]
        ∧ (See D (run D (newGryffinStore true) ops) k kind f).snd
          = (run D (newGryffinStore true) ops).snd)
    ∧ ((ValidString k = true → jsonCoerce k = k) ∧ (ValidString k = false → jsonCoerce k ≠ k))
    ∧ (IsHexEncoding (Sprintfx f) f ∧ ∀ c ∈ (Sprintfx f).data, c ∈ "0123456789abcdef".toList)
    ∧ ((run D (newGryffinStore true) ops).snd.isSome = true
      ∧ ∀ q, (run D (newGryffinStore true) ops).snd = some q → q.length ≤ 10)
    ∧ (∀ (t : GryffinStore O) (q : List Payload) (p : Payload) (i : Nat),
      t.snd = some q → t.sending[i]? = some p →
        (q.length < 10 →
          (sendStep t i).snd = some (q ++ [p]) ∧ (sendStep t i).sending = t.sending.eraseIdx i)
        ∧ (10 ≤ q.length → sendStep t i = t))
    ∧ ((run D (newGryffinStore false) ops).snd = none
      ∧ (run D (newGryffinStore false) ops).sending = []
      ∧ (See D (run D (newGryffinStore false) ops) k kind f).snd = none
      ∧ (See D (run D (newGryffinStore false) ops) k kind f).sending = []) := by
  refine ⟨?_, ⟨jsonCoerce_of_valid k, jsonCoerce_ne_of_invalid k⟩, Sprintfx_isHexEncoding f,
    run_shared_snd D ops, fun t q p i hq hp => sendStep_spec t q p i hq hp, ?_⟩
  · intro hk
    rw [See_sending_shared D _ k kind f (run_shared_snd D ops).1 hk, Marshal_See k kind f hk,
      See_snd]
    exact ⟨rfl, rfl⟩
  · obtain ⟨h1, h2⟩ := run_standalone D ops
    rw [See_snd, See_sending_standalone D _ k kind f h1]
    exact ⟨h1, h2, h1, h2⟩

/-- C8, amended, at concrete stores.  After a hash was published and sent on a
shared store, `See("x", "oracle", 255)` starts the one send of
`{See, oracle, x, ff}`, which a scheduled send step puts in the channel
behind the first message.  On a standalone store the same call starts
nothing. -/
theorem see_publishes_once_witness :
    (See listOracle (run listOracle (newGryffinStore true) [Op.See "y" "hash" 1, Op.Send 0])
        "x" "oracle" 255).sending
      = (run listOracle (newGryffinStore true) [Op.See "y" "hash" 1, Op.Send 0]).sending
        ++ [Payload.json { F := "See", T := "oracle", K := jsonCoerce "x", V := Sprintfx 255 }]
    ∧ (jsonCoerce "x" = "x" ∧ Sprintfx 255 = "ff")
    ∧ (sendStep (See listOracle
        (run listOracle (newGryffinStore true) [Op.See "y" "hash" 1, Op.Send 0])
        "x" "oracle" 255) 0).snd
      = some [Payload.json { F := "See", T := "hash", K := "y", V := "1" },
          Payload.json { F := "See", T := "oracle", K := "x", V := "ff" }]
    ∧ (See listOracle (run listOracle (newGryffinStore false) [Op.See "y" "hash" 1, Op.Send 0])
        "x" "oracle" 255).sending = []
    ∧ (See listOracle (run listOracle (newGryffinStore false) [Op.See "y" "hash" 1, Op.Send 0])
        "x" "oracle" 255).snd = none :=
  ⟨((see_publishes_once listOracle [Op.See "y" "hash" 1, Op.Send 0] "x" "oracle" 255).1
      (Or.inl rfl)).1,
    ⟨by decide, by decide⟩, by decide,
    (see_publishes_once listOracle [Op.See "y" "hash" 1, Op.Send 0] "x" "oracle"
      255).2.2.2.2.2.2.2.2,
    (see_publishes_once listOracle [Op.See "y" "hash" 1, Op.Send 0] "x" "oracle"
      255).2.2.2.2.2.2.2.1⟩

/-- C9, as stated, fails for a key that is not valid UTF-8.  The message that
`See("\xff", "hash", 1)` sends on a fresh shared store `A` carries the key
`EF BF BD` (U+FFFD); it reaches the channel and its reader unchanged, and a
fresh store `B` that takes it records `("\xef\xbf\xbd", 1)`: on `B`,
`Seen("\xff", "hash", 1, _)` is false. -/
theorem wire_loses_invalid_utf8_key :
    ValidString "\xff" = false
    ∧ (recvSnd (sendStep (See listOracle (NewSharedGryffinStore : GryffinStore (List Nat))
        "\xff" "hash" 1) 0)).1
      = some (Payload.json { F := "See", T := "hash", K := "\xef\xbf\xbd", V := "1" })
    ∧ (Seen listOracle (processRcvMsgBody listOracle NewSharedGryffinStore
        (Payload.json { F := "See", T := "hash", K := "\xef\xbf\xbd", V := "1" }))
        "\xff" "hash" 1 0).1 = false
    ∧ (Seen listOracle (processRcvMsgBody listOracle NewSharedGryffinStore
        (Payload.json { F := "See", T := "hash", K := "\xef\xbf\xbd", V := "1" }))
        "\xef\xbf\xbd" "hash" 1 0).1 = true := by
  decide

/-- C9, amended: for every 64-bit fingerprint `f`, parsing the `%x` rendering
of `f` in base 16 gives `f` back without error, and for every key `k` the
message whose send `See(k, "hash", f)` starts on a store `A` reached from one
constructed in shared mode (on a fresh one it is what the reader of the
channel receives once the send was scheduled), taken by the receive loop of
any store `B`, is replayed there as `hashesSee(k', f)` through the
local-only path, `k'` being
`k` with every byte outside a well-formed UTF-8 encoding replaced by U+FFFD;
so for every `k` that is valid UTF-8, `Seen(k, "hash", f, r)` is true on `B`.
Likewise the message of `See(k, "oracle", f)` is replayed as
`oracleSee(k', f)`, so for valid `k` the Oracle of `k` on `B` (a new one if
there was none) has recorded `f`. -/
theorem wire_round_trip {O : Type} (D : OracleOps O) (ops : List Op) (B : GryffinStore O)
    (k : String) (f r : Nat) (hf : f < 2 ^ 64) :
    ParseUint (Sprintfx f) 16 64 = (f, none)
    ∧ (See D (run D (newGryffinStore true) ops) k "hash" f).sending
        = (run D (newGryffinStore true) ops).sending
          ++ [Marshal { F := "See", T := "hash", K := k, V := Sprintfx f }]
    ∧ (recvSnd (sendStep (See D (newGryffinStore true) k "hash" f) 0)).1
        = some (Marshal { F := "See", T := "hash", K := k, V := Sprintfx f })
    ∧ processRcvMsgBody D B (Marshal { F := "See", T := "hash", K := k, V := Sprintfx f })
        = hashesSee B (jsonCoerce k) f true
    ∧ (ValidString k = true →
        (Seen D (processRcvMsgBody D B
          (Marshal { F := "See", T := "hash", K := k, V := Sprintfx f })) k "hash" f r).1
          = true)
    ∧ (See D (run D (newGryffinStore true) ops) k "oracle" f).sending
        = (run D (newGryffinStore true) ops).sending
          ++ [Marshal { F := "See", T := "oracle", K := k, V := Sprintfx f }]
    ∧ processRcvMsgBody D B (Marshal { F := "See", T := "oracle", K := k, V := Sprintfx f })
        = oracleSee D B (jsonCoerce k) f true
    ∧ (ValidString k = true →
        (processRcvMsgBody D B
          (Marshal { F := "See", T := "oracle", K := k, V := Sprintfx f })).Oracles k
          = some (D.See ((B.Oracles k).getD D.NewOracle) f)) := by
  have hp := ParseUint_Sprintfx f hf
  have hne : ¬ ("oracle" : String) = "hash" := by decide
  have hh : processRcvMsgBody D B (Marshal { F := "See", T := "hash", K := k, V := Sprintfx f })
      = hashesSee B (jsonCoerce k) f true := by
    rw [Marshal_See k "hash" f (Or.inr rfl), processRcvMsgBody_json, if_pos rfl, if_pos rfl, hp]
  have ho : processRcvMsgBody D B (Marshal { F := "See", T := "oracle", K := k, V := Sprintfx f })
      = oracleSee D B (jsonCoerce k) f true := by
    rw [Marshal_See k "oracle" f (Or.inl rfl), processRcvMsgBody_json, if_pos rfl, if_neg hne,
      if_pos rfl, hp]
  refine ⟨hp, See_sending_shared D _ k "hash" f (run_shared_snd D ops).1 (Or.inr rfl), ?_, hh,
    ?_, See_sending_shared D _ k "oracle" f (run_shared_snd D ops).1 (Or.inl rfl), ho, ?_⟩
  · simp [See, hashesSee, remoteUpdate, sendStep, recvSnd, newGryffinStore, chanCap]
  · intro hv
    rw [hh, jsonCoerce_of_valid k hv, Seen_hash, hashesSee_Hashes, mapSet_same]
    rfl
  · intro hv
    rw [ho, jsonCoerce_of_valid k hv, oracleSee_Oracles, mapSet_same]

/-- C9, amended, at the key `C3 A9` (the UTF-8 encoding of U+00E9) and the
largest fingerprint `2^64 - 1`, between two fresh shared stores. -/
theorem wire_round_trip_witness :
    (18446744073709551615 < 2 ^ 64 ∧ ValidString "\xc3\xa9" = true)
    ∧ ParseUint (Sprintfx 18446744073709551615) 16 64 = (18446744073709551615, none)
    ∧ (Seen listOracle (processRcvMsgBody listOracle NewSharedGryffinStore
        (Marshal
          { F := "See", T := "hash", K := "\xc3\xa9", V := Sprintfx 18446744073709551615 }))
        "\xc3\xa9" "hash" 18446744073709551615 0).1 = true :=
  ⟨⟨by decide, by decide⟩,
    (wire_round_trip listOracle [] NewSharedGryffinStore "\xc3\xa9"
      18446744073709551615 0 (by decide)).1,
    (wire_round_trip listOracle [] NewSharedGryffinStore "\xc3\xa9"
      18446744073709551615 0 (by decide)).2.2.2.2.1 (by decide)⟩

/-- C10, as stated, fails for a value that exceeds `2^64 - 1`: the 17-digit
`"10000000000000000"` is parsed, with a range error that is ignored, to
`2^64 - 1`, and the replay records that fingerprint and not 0. -/
theorem overflowing_value_replayed_as_max :
    ParseUint "10000000000000000" 16 64 = (18446744073709551615, some NumError.ErrRange)
    ∧ (Seen listOracle (processRcvMsgBody listOracle NewSharedGryffinStore
        (Payload.json { F := "See", T := "hash", K := "x", V := "10000000000000000" }))
        "x" "hash" 0 0).1 = false
    ∧ (Seen listOracle (processRcvMsgBody listOracle NewSharedGryffinStore
        (Payload.json { F := "See", T := "hash", K := "x", V := "10000000000000000" }))
        "x" "hash" 18446744073709551615 0).1 = true := by
  decide

/-- C10, amended: for every inbound `See`/`hash` message with key `K` whose
value `V` does not parse (`ParseUint` returns the error `e`), the error is
a syntax or a range error, it is dropped, and the update is replayed through
the local-only path with the value `ParseUint` returns beside it: 0 for a
syntax error, `2^64 - 1` for a range error.  Afterwards `Seen` is true for `K`
and that value, and unchanged for every other fingerprint of `K`. -/
theorem malformed_value_replay {O : Type} (D : OracleOps O) (s : GryffinStore O) (K V : String)
    (e : NumError) (he : (ParseUint V 16 64).2 = some e) :
    (e = NumError.ErrSyntax ∨ e = NumError.ErrRange)
    ∧ processRcvMsgBody D s (Payload.json { F := "See", T := "hash", K := K, V := V })
        = hashesSee s K (if e = NumError.ErrRange then 2 ^ 64 - 1 else 0) true
    ∧ (∀ r, (Seen D (processRcvMsgBody D s
          (Payload.json { F := "See", T := "hash", K := K, V := V }))
          K "hash" (if e = NumError.ErrRange then 2 ^ 64 - 1 else 0) r).1 = true)
    ∧ (∀ f r, f ≠ (if e = NumError.ErrRange then 2 ^ 64 - 1 else 0) →
        (Seen D (processRcvMsgBody D s
          (Payload.json { F := "See", T := "hash", K := K, V := V })) K "hash" f r).1
          = (Seen D s K "hash" f r).1) := by
  have hpair : ParseUint V 16 64 = ((ParseUint V 16 64).1, some e) := by
    rw [← he]
  have hcases := ParseUint_err V _ e hpair
  have hval : (ParseUint V 16 64).1 = (if e = NumError.ErrRange then 2 ^ 64 - 1 else 0) := by
    rcases hcases with ⟨h1, h2⟩ | ⟨h1, h2⟩
    · rw [h2, h1, if_neg (by decide)]
    · rw [h2, h1, if_pos rfl]
  have hbody : processRcvMsgBody D s (Payload.json { F := "See", T := "hash", K := K, V := V })
      = hashesSee s K (if e = NumError.ErrRange then 2 ^ 64 - 1 else 0) true := by
    rw [processRcvMsgBody_json, if_pos rfl, if_pos rfl, hval]
  refine ⟨?_, hbody, ?_, ?_⟩
  · rcases hcases with ⟨h1, _⟩ | ⟨h1, _⟩
    · exact Or.inl h1
    · exact Or.inr h1
  · intro r
    rw [hbody, Seen_hash, hashesSee_Hashes, mapSet_same]
    rfl
  · intro f r hne
    rw [hbody, Seen_hash, Seen_hash, hashesSee_Hashes, mapSet_other]
    intro hk
    exact hne (hashKey_injective _ _ _ _ hk).2

/-- C10, amended, at the value `"0x2a"`: the `x` is a syntax error, the replay
records 0 for the key. -/
theorem malformed_value_replay_witness :
    (ParseUint "0x2a" 16 64).2 = some NumError.ErrSyntax
    ∧ processRcvMsgBody listOracle (NewSharedGryffinStore : GryffinStore (List Nat))
        (Payload.json { F := "See", T := "hash", K := "x", V := "0x2a" })
      = hashesSee NewSharedGryffinStore "x"
          (if NumError.ErrSyntax = NumError.ErrRange then 2 ^ 64 - 1 else 0) true :=
  ⟨by decide,
    (malformed_value_replay listOracle NewSharedGryffinStore "x" "0x2a" NumError.ErrSyntax
      (by decide)).2.1⟩

/-- C11: for every store and every decoded inbound message whose `F` is not
`"See"` or whose `T` is neither `"hash"` nor `"oracle"`, the body of the
receive loop returns the store as it was (oracles, hashes, hits and the
outbound queue), and the loop goes on with the next payloads as if the
message had not been there. -/
theorem unrecognized_message_dropped {O : Type} (D : OracleOps O) (s : GryffinStore O)
    (m : PublishMessage) (h : m.F ≠ "See" ∨ (m.T ≠ "hash" ∧ m.T ≠ "oracle")) :
    processRcvMsgBody D s (Payload.json m) = s
    ∧ (∀ rest : List Payload,
        processRcvMsg D s (Payload.json m :: rest) = processRcvMsg D s rest) := by
  have hbody : processRcvMsgBody D s (Payload.json m) = s := by
    rw [processRcvMsgBody_json]
    rcases h with h | ⟨h1, h2⟩
    · rw [if_neg h]
    · rw [if_neg h1, if_neg h2]
      split <;> rfl
  refine ⟨hbody, ?_⟩
  intro rest
  simp only [processRcvMsg, List.foldl_cons]
  rw [hbody]

/-- C11, at a store holding a hash, an Oracle and a counter: a `Seen` message
and a `See` message of kind `"bogus"` leave it as it was. -/
theorem unrecognized_message_dropped_witness :
    (("Seen" : String) ≠ "See" ∨ (("hash" : String) ≠ "hash" ∧ ("hash" : String) ≠ "oracle"))
    ∧ processRcvMsgBody listOracle
        (run listOracle (newGryffinStore true)
          [Op.See "a" "hash" 1, Op.See "a" "oracle" 2, Op.Hit "a" 0])
        (Payload.json { F := "Seen", T := "hash", K := "a", V := "2a" })
      = run listOracle (newGryffinStore true)
          [Op.See "a" "hash" 1, Op.See "a" "oracle" 2, Op.Hit "a" 0] :=
  ⟨by decide,
    (unrecognized_message_dropped listOracle _
      { F := "Seen", T := "hash", K := "a", V := "2a" } (Or.inl (by decide))).1⟩

/-- C12, as stated, fails when the absent field is `K` or `V`: a `See`/`hash`
message without value records the fingerprint 0 for its key, and a
`See`/`oracle` message without key creates an Oracle for the empty key. -/
theorem missing_key_or_value_not_dropped :
    (processRcvMsgBody listOracle (NewSharedGryffinStore : GryffinStore (List Nat))
        (Payload.json { F := "See", T := "hash", K := "x", V := "" })).Hashes "x/0" = some true
    ∧ (NewSharedGryffinStore : GryffinStore (List Nat)).Hashes "x/0" = none
    ∧ (processRcvMsgBody listOracle (NewSharedGryffinStore : GryffinStore (List Nat))
        (Payload.json { F := "See", T := "oracle", K := "", V := "2a" })).Oracles "" = some [42]
    ∧ (NewSharedGryffinStore : GryffinStore (List Nat)).Oracles "" = none := by
  decide

/-- C12, amended: an inbound message whose `F` or `T` is absent (the empty
string) is dropped, the store staying as it was.  Absence of `K` or `V` alone
does not drop a message: with `F = "See"` and `T` equal to `"hash"` or
`"oracle"`, an absent `V` is replayed as the value 0 and an absent `K` as the
empty key, through the local-only path. -/
theorem missing_field_replay {O : Type} (D : OracleOps O) (s : GryffinStore O) :
    (∀ m : PublishMessage, m.F = "" ∨ m.T = "" → processRcvMsgBody D s (Payload.json m) = s)
    ∧ (∀ K : String,
        processRcvMsgBody D s (Payload.json { F := "See", T := "hash", K := K, V := "" })
          = hashesSee s K 0 true
        ∧ processRcvMsgBody D s (Payload.json { F := "See", T := "oracle", K := K, V := "" })
          = oracleSee D s K 0 true)
    ∧ (∀ V : String,
        processRcvMsgBody D s (Payload.json { F := "See", T := "hash", K := "", V := V })
          = hashesSee s "" (ParseUint V 16 64).1 true
        ∧ processRcvMsgBody D s (Payload.json { F := "See", T := "oracle", K := "", V := V })
          = oracleSee D s "" (ParseUint V 16 64).1 true) := by
  have hne : ¬ ("oracle" : String) = "hash" := by decide
  have h0 : (ParseUint "" 16 64).1 = 0 := by decide
  refine ⟨?_, ?_, ?_⟩
  · intro m h
    rw [processRcvMsgBody_json]
    rcases h with h | h
    · rw [if_neg (by rw [h]; decide)]
    · have h1 : ¬ m.T = "hash" := by rw [h]; decide
      have h2 : ¬ m.T = "oracle" := by rw [h]; decide
      rw [if_neg h1, if_neg h2]
      split <;> rfl
  · intro K
    constructor
    · rw [processRcvMsgBody_json, if_pos rfl, if_pos rfl, h0]
    · rw [processRcvMsgBody_json, if_pos rfl, if_neg hne, if_pos rfl, h0]
  · intro V
    constructor
    · rw [processRcvMsgBody_json, if_pos rfl, if_pos rfl]
    · rw [processRcvMsgBody_json, if_pos rfl, if_neg hne, if_pos rfl]

/-- C12, amended, at a message without kind: it is dropped. -/
theorem missing_field_replay_witness :
    processRcvMsgBody listOracle (NewSharedGryffinStore : GryffinStore (List Nat))
        (Payload.json { F := "See", T := "", K := "x", V := "2a" })
      = NewSharedGryffinStore :=
  (missing_field_replay listOracle NewSharedGryffinStore).1
    { F := "See", T := "", K := "x", V := "2a" } (Or.inr rfl)

/-- C13: for every store, key `k` and fingerprint `f`, calling
`See(k, "hash", f)` `n ≥ 1` times leaves hashes, oracles and hits as one call
does, so every `Seen` query (any key, kind, value, tolerance) answers as
after a single call. -/
theorem see_hash_idempotent {O : Type} (D : OracleOps O) (s : GryffinStore O) (k : String)
    (f n : Nat) (hn : 1 ≤ n) :
    ((fun t => See D t k "hash" f)^[n] s).Hashes = (See D s k "hash" f).Hashes
    ∧ ((fun t => See D t k "hash" f)^[n] s).Oracles = (See D s k "hash" f).Oracles
    ∧ ((fun t => See D t k "hash" f)^[n] s).Hits = (See D s k "hash" f).Hits
    ∧ (∀ (k' kind : String) (v r : Nat),
        (Seen D ((fun t => See D t k "hash" f)^[n] s) k' kind v r).1
          = (Seen D (See D s k "hash" f) k' kind v r).1) := by
  obtain ⟨m, rfl⟩ : ∃ m, n = m + 1 := ⟨n - 1, by omega⟩
  obtain ⟨h1, h2, h3⟩ := iterate_See_hash D s k f m
  obtain ⟨g1, g2, g3⟩ := iterate_See_hash D s k f 0
  simp only [Nat.zero_add, Function.iterate_succ, Function.iterate_zero, Function.comp,
    id] at g1 g2 g3
  have e1 := h1.trans g1.symm
  have e2 := h2.trans g2.symm
  have e3 := h3.trans g3.symm
  exact ⟨e1, e2, e3, fun k' kind v r => Seen_congr D _ _ k' kind v r e2 e1⟩

/-- C13, at three calls on a fresh store: the same answer as after one call. -/
theorem see_hash_idempotent_witness :
    1 ≤ 3
    ∧ (Seen listOracle ((fun t => See listOracle t "x" "hash" 7)^[3] NewGryffinStore)
        "x" "hash" 7 0).1
      = (Seen listOracle (See listOracle NewGryffinStore "x" "hash" 7) "x" "hash" 7 0).1 :=
  ⟨by decide,
    (see_hash_idempotent listOracle NewGryffinStore "x" 7 3 (by decide)).2.2.2 "x" "hash" 7 0⟩

/-- C14: for every store, key, fingerprint and tolerance, and every kind other
than `"oracle"` and `"hash"`, `Seen` returns false (a plain return, no
failure) and leaves the store as it was. -/
theorem seen_unknown_kind {O : Type} (D : OracleOps O) (s : GryffinStore O) (k kind : String)
    (v r : Nat) (ho : kind ≠ "oracle") (hh : kind ≠ "hash") :
    Seen D s k kind v r = (false, s) := by
  unfold Seen
  rw [if_neg ho, if_neg hh]

/-- C14, at the kind `"bogus"` on a store that holds the queried key under both
known kinds. -/
theorem seen_unknown_kind_witness :
    (("bogus" : String) ≠ "oracle" ∧ ("bogus" : String) ≠ "hash")
    ∧ (Seen listOracle (run listOracle (newGryffinStore false)
        [Op.See "x" "hash" 7, Op.See "x" "oracle" 7]) "x" "bogus" 7 0).1 = false
    ∧ (Seen listOracle (NewGryffinStore : GryffinStore (List Nat)) "x" "" 7 0).1 = false :=
  ⟨by decide,
    congrArg Prod.fst (seen_unknown_kind listOracle _ "x" "bogus" 7 0 (by decide) (by decide)),
    congrArg Prod.fst (seen_unknown_kind listOracle _ "x" "" 7 0 (by decide) (by decide))⟩

/-- C15: for every store and every single operation (`See` of any kind and key,
`Seen`, `Hit` at any instant, replay of any inbound payload), a pair `(k, f)`
for which `Seen(k, "hash", f, r)` is true before the operation is still seen
after it. -/
theorem hash_membership_grows {O : Type} (D : OracleOps O) (s : GryffinStore O) (op : Op)
    (k : String) (f r : Nat) (h : (Seen D s k "hash" f r).1 = true) :
    (Seen D (step D s op) k "hash" f r).1 = true := by
  rw [Seen_hash] at h ⊢
  exact step_Hashes_mono D s op _ h

/-- C15, at a store that has seen `("x", 7)`, under a `See` that records another
fingerprint for the same key. -/
theorem hash_membership_grows_witness :
    (Seen listOracle (See listOracle NewGryffinStore "x" "hash" 7) "x" "hash" 7 0).1 = true
    ∧ (Seen listOracle (step listOracle (See listOracle NewGryffinStore "x" "hash" 7)
        (Op.See "x" "hash" 8)) "x" "hash" 7 0).1 = true :=
  ⟨by decide,
    hash_membership_grows listOracle (See listOracle NewGryffinStore "x" "hash" 7)
      (Op.See "x" "hash" 8) "x" 7 0 (by decide)⟩

/-- C20: for every store (shared or standalone), key and fingerprint, `See`
with a kind other than `"oracle"` and `"hash"` returns the store as it was:
oracles, hashes and hits are unchanged, no Oracle is created for the key, the
outbound channel is as it was and no send to it is started. -/
theorem see_unknown_kind_noop {O : Type} (D : OracleOps O) (s : GryffinStore O)
    (k kind : String) (f : Nat) (ho : kind ≠ "oracle") (hh : kind ≠ "hash") :
    See D s k kind f = s
    ∧ (See D s k kind f).Oracles k = s.Oracles k
    ∧ (See D s k kind f).snd = s.snd
    ∧ (See D s k kind f).sending = s.sending := by
  have h : See D s k kind f = s := by
    unfold See
    rw [if_neg ho, if_neg hh]
  rw [h]
  exact ⟨rfl, rfl, rfl, rfl⟩

/-- C20, at the kind `"Oracle"` (wrong case) on a fresh shared store: no Oracle
for the key, nothing published. -/
theorem see_unknown_kind_noop_witness :
    (("Oracle" : String) ≠ "oracle" ∧ ("Oracle" : String) ≠ "hash")
    ∧ See listOracle (NewSharedGryffinStore : GryffinStore (List Nat)) "x" "Oracle" 7
      = NewSharedGryffinStore :=
  ⟨by decide,
    (see_unknown_kind_noop listOracle NewSharedGryffinStore "x" "Oracle" 7 (by decide)
      (by decide)).1⟩

/-- C19: (1) in every store reached from a fresh one by any sequence of
operations, every counter of the hits map is between 1 and 5; (2) in every
store, a `Hit` that returns false returns the store as it was; (3) a `Hit`
that returns true sets the counter of its bucket to one more than it was,
creating it at 1 when it did not exist, and changes no other counter and
nothing else of the store. -/
theorem hits_counters_bounded {O : Type} (D : OracleOps O) :
    (∀ (shared : Bool) (ops : List Op) (K : String) (v : Int),
      (run D (newGryffinStore shared) ops).Hits K = some v → 1 ≤ v ∧ v ≤ 5)
    ∧ (∀ (s : GryffinStore O) (k : String) (now : Int),
      (Hit s k now).1 = false → (Hit s k now).2 = s)
    ∧ (∀ (s : GryffinStore O) (k : String) (now : Int), (Hit s k now).1 = true →
      (Hit s k now).2.Hits (k ++ "/" ++ FormatInt (windowStart now) 10)
          = some ((s.Hits (k ++ "/" ++ FormatInt (windowStart now) 10)).getD 0 + 1)
        ∧ (s.Hits (k ++ "/" ++ FormatInt (windowStart now) 10) = none →
          (Hit s k now).2.Hits (k ++ "/" ++ FormatInt (windowStart now) 10) = some 1)
        ∧ (∀ K, K ≠ k ++ "/" ++ FormatInt (windowStart now) 10 →
          (Hit s k now).2.Hits K = s.Hits K)
        ∧ (Hit s k now).2.Oracles = s.Oracles
        ∧ (Hit s k now).2.Hashes = s.Hashes
        ∧ (Hit s k now).2.snd = s.snd
        ∧ (Hit s k now).2.sending = s.sending) := by
  refine ⟨?_, ?_, ?_⟩
  · intro shared ops K v hv
    exact run_HitsInRange D ops _ (fresh_HitsInRange shared) K v hv
  · intro s k now h
    unfold Hit at h ⊢
    simp only at h ⊢
    cases hv : s.Hits (k ++ "/" ++ FormatInt (windowStart now) 10) with
    | none => rw [hv] at h; simp at h
    | some v =>
      rw [hv] at h
      simp only at h ⊢
      split
      · rfl
      · rename_i h5
        simp [h5] at h
  · intro s k now h
    rw [Hit_fst] at h
    refine ⟨?_, ?_, ?_, Hit_Oracles s k now, Hit_Hashes s k now, Hit_snd s k now,
      Hit_sending s k now⟩
    · rw [Hit_Hits, if_pos rfl]
      cases hv : s.Hits (k ++ "/" ++ FormatInt (windowStart now) 10) with
      | none => simp
      | some v =>
        rw [hv] at h
        simp only [decide_eq_true_eq] at h
        have h5 : ¬ v ≥ 5 := by omega
        simp [h5]
    · intro hn
      rw [Hit_Hits, if_pos rfl, hn]
    · intro K hK
      rw [Hit_Hits, if_neg hK]

/-- C19, on a fresh store: after six hits in one window the counter is 5, a
seventh hit answers false, and the store it returns is the one it got. -/
theorem hits_counters_bounded_witness :
    (hitAll (NewGryffinStore : GryffinStore (List Nat)) "k" [0, 1, 2, 3, 4, 5]).2.Hits "k/0"
      = some 5
    ∧ (Hit (hitAll (NewGryffinStore : GryffinStore (List Nat)) "k" [0, 1, 2, 3, 4, 5]).2
        "k" 6).1 = false
    ∧ (Hit (hitAll (NewGryffinStore : GryffinStore (List Nat)) "k" [0, 1, 2, 3, 4, 5]).2
        "k" 6).2
      = (hitAll (NewGryffinStore : GryffinStore (List Nat)) "k" [0, 1, 2, 3, 4, 5]).2 :=
  ⟨by decide, by decide,
    (hits_counters_bounded listOracle).2.1 _ "k" 6 (by decide)⟩

/-- C17: (1) for distinct keys `k₁ ≠ k₂`, whatever characters they contain, and
any two instants, a call `Hit(k₁)` leaves the counter that `Hit(k₂)` reads
and writes as it was; (2) in any sequence of `Hit` calls (any keys, any
instants), the answers to the calls of one key are those the same calls get
when made alone; (3) the counter keys of different (key, window) pairs are
different, and a call `Hit(k)` leaves the counters of the other windows of
`k` as they were. -/
theorem hit_limit_per_key {O : Type} (s : GryffinStore O) :
    (∀ (k₁ k₂ : String) (t₁ t₂ : Int), k₁ ≠ k₂ →
      (Hit s k₁ t₁).2.Hits (k₂ ++ "/" ++ FormatInt (windowStart t₂) 10)
        = s.Hits (k₂ ++ "/" ++ FormatInt (windowStart t₂) 10))
    ∧ (∀ (calls : List (String × Int)) (k : String),
      ((hitCalls s calls).1.filter (fun x => decide (x.1 = k))).map Prod.snd
        = (hitAll s k ((calls.filter (fun c => decide (c.1 = k))).map Prod.snd)).1)
    ∧ (∀ (k₁ k₂ : String) (i j : Int),
      k₁ ++ "/" ++ FormatInt i 10 = k₂ ++ "/" ++ FormatInt j 10 → k₁ = k₂ ∧ i = j)
    ∧ (∀ (k : String) (t₁ t₂ : Int), windowStart t₁ ≠ windowStart t₂ →
      (Hit s k t₁).2.Hits (k ++ "/" ++ FormatInt (windowStart t₂) 10)
        = s.Hits (k ++ "/" ++ FormatInt (windowStart t₂) 10)) :=
  ⟨fun k₁ k₂ t₁ t₂ h => Hit_Hits_other_key s k₁ k₂ t₁ (windowStart t₂) h,
    fun calls k => hitCalls_filter k calls s s (fun _ => rfl),
    hitsKey_injective,
    fun k t₁ t₂ h => Hit_Hits_other_window s k t₁ (windowStart t₂) (fun e => h e.symm)⟩

/-- C17, at the keys `"a"` and `"a/5"` (the counter key `"a/5"` of key `"a"` in
the window of 5 s looks like the other key): six calls of `"a"` interleaved
with calls of `"a/5"` are answered as when made alone, five times true and
then false. -/
theorem hit_limit_per_key_witness :
    ("a" : String) ≠ "a/5"
    ∧ ((hitCalls (NewGryffinStore : GryffinStore Unit)
        [("a", 5000000000), ("a/5", 0), ("a", 5000000001), ("a/5", 1), ("a", 5000000002),
          ("a/5", 2), ("a", 5000000003), ("a/5", 3), ("a", 5000000004), ("a/5", 4),
          ("a", 5000000005), ("a/5", 5)]).1.filter (fun x => decide (x.1 = "a"))).map Prod.snd
      = [true, true, true, true, true, false]
    ∧ (Hit (NewGryffinStore : GryffinStore Unit) "a/5" 0).2.Hits
        ("a" ++ "/" ++ FormatInt (windowStart 5000000000) 10) = none :=
  ⟨by decide,
    ((hit_limit_per_key (NewGryffinStore : GryffinStore Unit)).2.1 _ "a").trans (by decide),
    ((hit_limit_per_key (NewGryffinStore : GryffinStore Unit)).1 "a/5" "a" 0 5000000000
      (by decide)).trans (by decide)⟩

/-- C18: from a store reached from a fresh one by any operations, for every key
`k`, every sequence of calls `Hit(k)` (in particular one with non-decreasing
instants) and every span `[a, a + 5 s)`, hence every span shorter than 5 s, at
most 10 of the calls at instants of the span return true; and 10 is reached:
on a fresh store, five calls at 4.9 s followed by five calls at 5.0 s, a
non-decreasing sequence within 0.1 s, all return true. -/
theorem burst_bound {O : Type} (D : OracleOps O) (shared : Bool) (pre : List Op) (k : String) :
    (∀ (ts : List Int) (a : Int),
      permitsInSpan a (hitAll (run D (newGryffinStore shared) pre) k ts).1 ts ≤ 10)
    ∧ (List.Chain' (fun x y : Int => x ≤ y)
        [4900000000, 4900000000, 4900000000, 4900000000, 4900000000,
          5000000000, 5000000000, 5000000000, 5000000000, 5000000000]
      ∧ permitsInSpan 4900000000
        (hitAll (newGryffinStore shared : GryffinStore O) k
          [4900000000, 4900000000, 4900000000, 4900000000, 4900000000,
            5000000000, 5000000000, 5000000000, 5000000000, 5000000000]).1
        [4900000000, 4900000000, 4900000000, 4900000000, 4900000000,
          5000000000, 5000000000, 5000000000, 5000000000, 5000000000] = 10) := by
  constructor
  · intro ts a
    have hin : HitsInRange (run D (newGryffinStore shared) pre) :=
      run_HitsInRange D pre _ (fresh_HitsInRange shared)
    have hb := permitsInSpan_bound k a ts _ hin
    have h0 := HitsInRange_counter _ hin (k ++ "/" ++ FormatInt (windowStart a) 10)
    have h1 := HitsInRange_counter _ hin (k ++ "/" ++ FormatInt (windowStart a + 5) 10)
    omega
  · refine ⟨by simp, ?_⟩
    rw [hitAll_burst]
    unfold permitsInSpan second
    decide

/-- C16, evaluated on the code: two callers `See("k", "oracle", 1)` and
`See("k", "oracle", 2)` on a store without Oracle for `"k"`.  When both run
their lookup before either creates (schedule 0, 1, 0, 0, 1, 1), each creates
an Oracle: two instances exist, the map ends with the second, and that one
has recorded 2 only, the fingerprint 1 being left in the replaced instance.
When the callers run one after the other (schedule 0, 0, 0, 1, 1) there is
one instance and it has recorded both. -/
theorem concurrent_oracleSee_replaces_oracle :
    (interleave listOracle { heap := [], Oracles := fun _ => none }
        [{ pfx := "k", f := 1, pc := SeePc.lookup }, { pfx := "k", f := 2, pc := SeePc.lookup }]
        [0, 1, 0, 0, 1, 1]).1.heap = [[1], [2]]
    ∧ (interleave listOracle { heap := [], Oracles := fun _ => none }
        [{ pfx := "k", f := 1, pc := SeePc.lookup }, { pfx := "k", f := 2, pc := SeePc.lookup }]
        [0, 1, 0, 0, 1, 1]).2
      = [{ pfx := "k", f := 1, pc := SeePc.done }, { pfx := "k", f := 2, pc := SeePc.done }]
    ∧ (interleave listOracle { heap := [], Oracles := fun _ => none }
        [{ pfx := "k", f := 1, pc := SeePc.lookup }, { pfx := "k", f := 2, pc := SeePc.lookup }]
        [0, 1, 0, 0, 1, 1]).1.oracleOf "k" = some [2]
    ∧ listOracle.Seen [2] 1 0 = false
    ∧ (interleave listOracle { heap := [], Oracles := fun _ => none }
        [{ pfx := "k", f := 1, pc := SeePc.lookup }, { pfx := "k", f := 2, pc := SeePc.lookup }]
        [0, 0, 0, 1, 1]).1.heap = [[1, 2]]
    ∧ (interleave listOracle { heap := [], Oracles := fun _ => none }
        [{ pfx := "k", f := 1, pc := SeePc.lookup }, { pfx := "k", f := 2, pc := SeePc.lookup }]
        [0, 0, 0, 1, 1]).1.oracleOf "k" = some [1, 2] := by
  decide

end Gryffin
